import Mathlib

/-!
Verification of the deduplication and classification pipeline of the
claude-agents-ultimate-collection repository.

The two modules carrying the decision logic are embedded here:
  * `intelligent_dedupe.py` (namespace `Ded`), and
  * `collect_agents.py` (namespace `Col`).

Strings are modelled as `List Char`; Python's `str.lower` is modelled
character-wise (the inputs of interest are ASCII).  Python floats are
modelled as exact rationals.  The external `difflib.SequenceMatcher`
(standard library, constructed with `isjunk=None`, `autojunk=True`)
is embedded in full below, including the autojunk "popular element"
rule and the two non-junk extension loops of `find_longest_match`
(the two junk extension loops are omitted because with `isjunk=None`
the junk set `bjunk` is always empty, so their guards are false).
-/

set_option maxRecDepth 100000

namespace AgentsCollection

abbrev Str := List Char

/-- Python `str.lower`, character-wise (ASCII case mapping). -/
def pyLower (s : Str) : Str := s.map Char.toLower

/-- ASCII whitespace, as stripped by Python `str.strip()`. -/
def isPySpace (c : Char) : Bool :=
  c = ' ' || c = '\t' || c = '\n' || c = '\r' || c = '\x0b' || c = '\x0c'

/-- Python `str.strip()`: whitespace removed from both ends. -/
def pyStrip (s : Str) : Str :=
  ((s.dropWhile isPySpace).reverse.dropWhile isPySpace).reverse

/-- Python `s.startswith(p)`; first argument is the pattern `p`. -/
def pyStartswith : Str → Str → Bool
  | [], _ => true
  | _ :: _, [] => false
  | p :: ps, c :: cs => p = c && pyStartswith ps cs

/-- Python substring containment `needle in hay`. -/
def pyIn (needle : Str) : Str → Bool
  | [] => needle.isEmpty
  | c :: rest => pyStartswith needle (c :: rest) || pyIn needle rest

/-- Python `s.endswith(suf)`; first argument is the suffix. -/
def pyEndswith (suf s : Str) : Bool := pyStartswith suf.reverse s.reverse

/-- Python `s.count(sub)` for a nonempty `sub`: number of non-overlapping
occurrences, scanning left to right.  (The sources only count the
triple-backtick code fence marker.)  Structured with list-length fuel
so that the kernel can evaluate it; every step consumes at least one
character, so fuel `s.length` is never exhausted. -/
def pyCountF (sub : Str) : Nat → Str → Nat
  | 0, _ => 0
  | _ + 1, [] => 0
  | fuel + 1, c :: rest =>
    if sub.isEmpty then 0
    else if pyStartswith sub (c :: rest) then 1 + pyCountF sub fuel (rest.drop (sub.length - 1))
    else pyCountF sub fuel rest

/-- See `pyCountF`. -/
def pyCount (sub s : Str) : Nat := pyCountF sub s.length s

/-- Index of the first occurrence of `sub` in `s`, if any. -/
def findSub (sub : Str) : Str → Option Nat
  | [] => if sub.isEmpty then some 0 else none
  | c :: rest =>
    if pyStartswith sub (c :: rest) then some 0
    else (findSub sub rest).map (· + 1)

/-- Python `s.split(sep, maxsplit)` for a nonempty separator `sep`:
split at the leftmost occurrences, at most `maxsplit` times. -/
def pySplit (sep : Str) : Nat → Str → List Str
  | 0, s => [s]
  | m + 1, s =>
    match findSub sep s with
    | none => [s]
    | some i => s.take i :: pySplit sep m (s.drop (i + sep.length))

/-! ## difflib.SequenceMatcher (isjunk=None, autojunk=True)

`b2j` omits "popular" elements of `b` (autojunk): when `len(b) >= 200`,
elements occurring more than `len(b) // 100 + 1` times.  `bjunk` is empty. -/

/-- The autojunk popularity test on elements of `b`. -/
def isPopular (b : Str) (c : Char) : Bool :=
  decide (200 ≤ b.length) && decide (b.length / 100 + 1 < b.count c)

/-- One row of the `j2len` dynamic program of `find_longest_match`:
entry `j` is the length of the matching run ending at `a[i]`,`b[j]`
(0 outside `[blo, bhi)`, on mismatches, and on popular elements,
which are absent from `b2j`). -/
def dpRow (b : Str) (blo bhi : Nat) (ai : Char) (prev : List Nat) : List Nat :=
  (List.range b.length).map fun j =>
    if blo ≤ j ∧ j < bhi ∧ b.getD j ' ' = ai ∧ ¬ isPopular b ai then
      (if j = 0 then 0 else prev.getD (j - 1) 0) + 1
    else 0

/-- The best-block update of `find_longest_match`: scanning `j` in
ascending order, replace the running best exactly when the new run is
strictly longer (so the earliest maximal block wins). -/
def scanRow (i : Nat) (row : List Nat) (best : Nat × Nat × Nat) : Nat × Nat × Nat :=
  (List.range row.length).foldl
    (fun acc j =>
      let k := row.getD j 0
      if acc.2.2 < k then (i + 1 - k, j + 1 - k, k) else acc)
    best

/-- The main double loop of `find_longest_match` over `i ∈ [alo, ahi)`. -/
def flmDP (a b : Str) (alo ahi blo bhi : Nat) : Nat × Nat × Nat :=
  ((List.range' alo (ahi - alo)).foldl
    (fun st i =>
      let row := dpRow b blo bhi (a.getD i ' ') st.1
      (row, scanRow i row st.2))
    (List.replicate b.length 0, (alo, blo, 0))).2

/-- The first (non-junk) backward extension loop of `find_longest_match`.
The fuel argument is an upper bound on the number of iterations; callers
pass the current `besti`, which suffices since `besti` must stay above
`alo ≥ 0` and decreases each step. -/
def extendBack (a b : Str) (alo blo : Nat) : Nat → Nat × Nat × Nat → Nat × Nat × Nat
  | 0, best => best
  | fuel + 1, (bi, bj, bs) =>
    if alo < bi ∧ blo < bj ∧ (a.get? (bi - 1)).isSome ∧ a.get? (bi - 1) = b.get? (bj - 1) then
      extendBack a b alo blo fuel (bi - 1, bj - 1, bs + 1)
    else (bi, bj, bs)

/-- The first (non-junk) forward extension loop of `find_longest_match`;
fuel `ahi` bounds the iterations since `bi + bs` must stay below `ahi`. -/
def extendFwd (a b : Str) (ahi bhi : Nat) : Nat → Nat × Nat × Nat → Nat × Nat × Nat
  | 0, best => best
  | fuel + 1, (bi, bj, bs) =>
    if bi + bs < ahi ∧ bj + bs < bhi ∧ (a.get? (bi + bs)).isSome ∧
        a.get? (bi + bs) = b.get? (bj + bs) then
      extendFwd a b ahi bhi fuel (bi, bj, bs + 1)
    else (bi, bj, bs)

/-- `SequenceMatcher.find_longest_match` on the region
`a[alo:ahi]`, `b[blo:bhi]`: returns `(besti, bestj, bestsize)`. -/
def find_longest_match (a b : Str) (alo ahi blo bhi : Nat) : Nat × Nat × Nat :=
  let best := flmDP a b alo ahi blo bhi
  let best := extendBack a b alo blo best.1 best
  extendFwd a b ahi bhi ahi best

/-- Total size of all matching blocks found by the recursive
decomposition of `get_matching_blocks` (the queue-based traversal of
the Python code visits exactly these regions; block coalescing does not
change the total).  Fueled: every recursive call strictly shrinks the
region, so the initial fuel `len(a)+len(b)+1` is never exhausted. -/
def matchTotalF (a b : Str) : Nat → Nat → Nat → Nat → Nat → Nat
  | 0, _, _, _, _ => 0
  | fuel + 1, alo, ahi, blo, bhi =>
    let m := find_longest_match a b alo ahi blo bhi
    if m.2.2 = 0 then 0
    else
      matchTotalF a b fuel alo m.1 blo m.2.1 + m.2.2 +
        matchTotalF a b fuel (m.1 + m.2.2) ahi (m.2.1 + m.2.2) bhi

/-- Sum of the sizes of all matching blocks of `a` and `b`. -/
def matchTotal (a b : Str) : Nat :=
  matchTotalF a b (a.length + b.length + 1) 0 a.length 0 b.length

/-- `SequenceMatcher.ratio()`: `2*M/T` where `M` is the total size of
matched blocks and `T` the total length; 1 when both inputs are empty
(as in difflib's `_calculate_ratio`). -/
def seqRatio (a b : Str) : ℚ :=
  if a.length + b.length = 0 then 1
  else (2 * matchTotal a b : ℚ) / ((a.length : ℚ) + (b.length : ℚ))

/-! ## Parsed YAML values and Python operations on them -/

/-- A parsed YAML value, as returned by `yaml.safe_load`: a scalar
string, a sequence, a mapping, or Python `None`. -/
inductive YVal where
  | s (v : Str)
  | arr (v : List YVal)
  | dict (v : List (Str × YVal))
  | null

/-- Python truthiness of a parsed YAML value (`bool(x)`). -/
def yTruthy : YVal → Bool
  | .null => false
  | .s v => !v.isEmpty
  | .arr v => !v.isEmpty
  | .dict d => !d.isEmpty

/-- Python `key in x` on the shapes where the test returns: key
membership on a mapping, substring containment on a string, element
equality on a list (a non-string element never equals a string key).
On `x = None` Python raises `TypeError`; that raise is modelled by
`yContainsE` below, and this total function is its value on the
non-raising shapes (the `.null` branch is never reached through
`yContainsE`). -/
def yContains (key : Str) : YVal → Bool
  | .s v => pyIn key v
  | .arr v => v.any fun e => match e with | .s w => decide (w = key) | _ => false
  | .dict d => d.any fun kv => decide (kv.1 = key)
  | .null => false

/-- Python `key in x` with the error path modelled: on `None` the test
raises `TypeError` (`none`); on a string, a list or a mapping it
returns the value of `yContains`. -/
def yContainsE (key : Str) : YVal → Option Bool
  | .null => none
  | .s v => some (yContains key (.s v))
  | .arr v => some (yContains key (.arr v))
  | .dict d => some (yContains key (.dict d))

/-- Python `x.get(key, default)` on a mapping: the stored value of the
key, or the default.  On a non-mapping `x` the attribute lookup raises
`AttributeError`; that raise is modelled by `yGetE` below, and this
total function is meaningful only on mappings (its non-mapping branch
is never reached through `yGetE`). -/
def yGet (key : Str) (dflt : YVal) : YVal → YVal
  | .dict d =>
    match d.find? (fun kv => decide (kv.1 = key)) with
    | some kv => kv.2
    | none => dflt
  | _ => dflt

/-- Python `x.get(key, default)` with the error path modelled: on a
non-mapping `x` the attribute lookup raises `AttributeError` (`none`);
on a mapping it returns the value of `yGet`. -/
def yGetE (key : Str) (dflt : YVal) : YVal → Option YVal
  | .dict d => some (yGet key dflt (.dict d))
  | _ => none

/-- Python `len` on the sized values.  `len(None)` raises `TypeError`;
that raise is modelled by `yLenE` below (the `.null` branch here is
never reached through `yLenE`). -/
def yLen : YVal → Nat
  | .s v => v.length
  | .arr v => v.length
  | .dict d => d.length
  | .null => 0

/-- Python `len(x)` with the error path modelled: on `None` it raises
`TypeError` (`none`); on a sized value it returns the value of
`yLen`. -/
def yLenE : YVal → Option Nat
  | .null => none
  | .s v => some (yLen (.s v))
  | .arr v => some (yLen (.arr v))
  | .dict d => some (yLen (.dict d))

/-- Model of the external library call `yaml.safe_load` (PyYAML is not
part of this repository) on the restricted inputs the pipeline feeds
it: a block whose nonempty lines all have the form `key: value`
(or `key:`) parses to a mapping of stripped keys to stripped scalar
values; a blank block parses to `None`; a block with no mapping line
parses to a plain scalar; a block mixing mapping and non-mapping lines
is malformed and raises (`none`). -/
def yamlSafeLoad (s : Str) : Option YVal :=
  let lines := (pySplit ['\n'] s.length s).map pyStrip
  let nonempty := lines.filter (fun l => !l.isEmpty)
  let isMapLine : Str → Bool := fun l =>
    match findSub [':', ' '] l with
    | some i => !(pyStrip (l.take i)).isEmpty
    | none => !l.isEmpty && decide (l.getLast? = some ':')
  if nonempty.isEmpty then some .null
  else if nonempty.all isMapLine then
    some (.dict (nonempty.map fun l =>
      match findSub [':', ' '] l with
      | some i => (pyStrip (l.take i), YVal.s (pyStrip (l.drop (i + 2))))
      | none => (pyStrip (l.take (l.length - 1)), YVal.null)))
  else if nonempty.any isMapLine then none
  else some (.s (pyStrip s))

/-- `extract_yaml` of intelligent_dedupe.py and (identically)
`extract_yaml_frontmatter` of collect_agents.py.  Note: the guard is
`content.startswith('---')` and the cut points are the first two
occurrences of the three-character substring `---` anywhere
(`content.split('---', 2)`), not delimiter lines; a falsy parse result
is replaced by an empty mapping (the `yaml_data or` fallback), the body
is `parts[2].strip()`; a parse error falls back to the empty mapping
with the content unchanged.
The function is total: no exception escapes it. -/
def extract_yaml (content : Str) : YVal × Str :=
  if pyStartswith "---".toList content then
    match pySplit "---".toList 2 content with
    | _ :: p1 :: p2 :: _ =>
      match yamlSafeLoad p1 with
      | some y => (if yTruthy y then y else .dict [], pyStrip p2)
      | none => (.dict [], content)
    | _ => (.dict [], content)
  else (.dict [], content)

/-! ## intelligent_dedupe.py -/

namespace Ded

/-- The `Agent` dataclass of intelligent_dedupe.py.  `path` is the
opaque file identity used by the `processed` / `in_groups` sets. -/
structure Agent where
  path : Nat
  name : Str
  content : Str
  yaml_data : YVal
  quality_score : Nat
  content_length : Nat
  has_yaml : Bool
  has_tools : Bool
  has_structure : Bool
  has_examples : Bool
  source_repo : Str

/-- The allow-list of the source-repository quality bonus. -/
def quality_repos : List Str :=
  ["voltagent".toList, "wshobson".toList, "0xfurai".toList, "davepoon".toList]

/-- The fourth structure test of the scorer, which also triggers the
`agent.has_examples = True` assignment. -/
def examplesCond (a : Agent) : Bool :=
  pyIn "## examples".toList (pyLower a.content) || pyIn "```".toList a.content

/-- `calculate_quality_score` of intelligent_dedupe.py, success path.
The Python method returns the score and, as a side effect, sets
`agent.has_examples = True` when the examples test fires; it is
modelled as returning the score together with the updated record.
The method is not total: its frontmatter block can raise on a
non-mapping `yaml_data` (a membership test on `None`, `.get` on a
scalar or a list, `len` of a retrieved `None` value); the raises are
modelled by `calculate_quality_scoreE` below, which returns `some` of
this function's result exactly when the Python method returns. -/
def calculate_quality_score (a : Agent) : Nat × Agent :=
  let s1 : Nat :=
    if 3000 < a.content_length then 20
    else if 2000 < a.content_length then 15
    else if 1000 < a.content_length then 10
    else if 500 < a.content_length then 5
    else 0
  let s2 : Nat :=
    if a.has_yaml then
      5 + (if yContains "name".toList a.yaml_data then 5 else 0)
        + (if yContains "description".toList a.yaml_data then
            5 + (let dl := yLen (yGet "description".toList (.s []) a.yaml_data)
                 if 100 < dl then 5 else if 50 < dl then 3 else 0)
           else 0)
        + (if yContains "tools".toList a.yaml_data then
            5 + (let tc := yLen (yGet "tools".toList (.arr []) a.yaml_data)
                 if 5 < tc then 5 else if 2 < tc then 3 else 0)
           else 0)
    else 0
  let cl := pyLower a.content
  let s3 : Nat :=
    (if pyIn "## responsibilities".toList cl || pyIn "## your role".toList cl then 5 else 0)
    + (if pyIn "## guidelines".toList cl || pyIn "## principles".toList cl then 5 else 0)
    + (if pyIn "## workflow".toList cl || pyIn "## process".toList cl then 5 else 0)
    + (if examplesCond a then 5 else 0)
  let s4 : Nat :=
    (if pyIn "you are".toList cl || pyIn "your role".toList cl then 5 else 0)
    + (if pyIn "must".toList cl || pyIn "should".toList cl then 5 else 0)
    + (if pyIn "step".toList cl || pyIn "process".toList cl then 5 else 0)
  let cb := pyCount "```".toList a.content
  let s5 : Nat := if 4 ≤ cb then 10 else if 2 ≤ cb then 5 else 0
  let s6 : Nat := if quality_repos.any (fun r => pyIn r (pyLower a.source_repo)) then 10 else 0
  (s1 + s2 + s3 + s4 + s5 + s6,
   if examplesCond a then { a with has_examples := true } else a)

/-- The frontmatter block of the intelligent_dedupe scorer with its
error paths modelled (`none` = the Python method raises instead of
returning).  In source order the block runs, when `agent.has_yaml` is
set: the membership tests for `name`, `description` and `tools` on
`agent.yaml_data` (`TypeError` on `None`); inside a taken
`description` or `tools` branch, `agent.yaml_data.get`
(`AttributeError` on a non-mapping) and `len` of the retrieved value
(`TypeError` on `None`). -/
def yamlScoreE (a : Agent) : Option Nat :=
  if a.has_yaml then
    (yContainsE "name".toList a.yaml_data).bind fun cn =>
    (yContainsE "description".toList a.yaml_data).bind fun cd =>
    (if cd then
       (yGetE "description".toList (.s []) a.yaml_data).bind fun dv =>
       (yLenE dv).map fun dl =>
         5 + (if 100 < dl then 5 else if 50 < dl then 3 else 0)
     else some 0).bind fun sd =>
    (yContainsE "tools".toList a.yaml_data).bind fun ct =>
    (if ct then
       (yGetE "tools".toList (.arr []) a.yaml_data).bind fun tv =>
       (yLenE tv).map fun tc =>
         5 + (if 5 < tc then 5 else if 2 < tc then 3 else 0)
     else some 0).map fun st =>
    5 + (if cn then 5 else 0) + sd + st
  else some 0

/-- `calculate_quality_score` of intelligent_dedupe.py with its error
paths modelled.  The frontmatter block (`yamlScoreE`) is the only part
of the method that can raise — every other block only reads strings,
lengths and counts — so the method returns exactly when that block
does, and then the score combines the six blocks as in the source and
the record update is the `has_examples` assignment. -/
def calculate_quality_scoreE (a : Agent) : Option (Nat × Agent) :=
  (yamlScoreE a).map fun s2 =>
    let s1 : Nat :=
      if 3000 < a.content_length then 20
      else if 2000 < a.content_length then 15
      else if 1000 < a.content_length then 10
      else if 500 < a.content_length then 5
      else 0
    let cl := pyLower a.content
    let s3 : Nat :=
      (if pyIn "## responsibilities".toList cl || pyIn "## your role".toList cl then 5 else 0)
      + (if pyIn "## guidelines".toList cl || pyIn "## principles".toList cl then 5 else 0)
      + (if pyIn "## workflow".toList cl || pyIn "## process".toList cl then 5 else 0)
      + (if examplesCond a then 5 else 0)
    let s4 : Nat :=
      (if pyIn "you are".toList cl || pyIn "your role".toList cl then 5 else 0)
      + (if pyIn "must".toList cl || pyIn "should".toList cl then 5 else 0)
      + (if pyIn "step".toList cl || pyIn "process".toList cl then 5 else 0)
    let cb := pyCount "```".toList a.content
    let s5 : Nat := if 4 ≤ cb then 10 else if 2 ≤ cb then 5 else 0
    let s6 : Nat := if quality_repos.any (fun r => pyIn r (pyLower a.source_repo)) then 10 else 0
    (s1 + s2 + s3 + s4 + s5 + s6,
     if examplesCond a then { a with has_examples := true } else a)

/-- `the leading-number substitution of get_semantic_key`: drop a leading digit run followed
by a single hyphen or underscore. -/
def stripNumPrefix (s : Str) : Str :=
  let ds := s.takeWhile Char.isDigit
  if ds.isEmpty then s
  else
    match s.drop ds.length with
    | '-' :: rest => rest
    | '_' :: rest => rest
    | _ => s

/-- `re.sub(r'[-_]', ' ', s)`. -/
def sepToSpace (s : Str) : Str :=
  s.map fun c => if c = '-' ∨ c = '_' then ' ' else c

/-- The ordered `duplicate_patterns` table, flattened in iteration
order (outer tuples first, patterns inside a tuple in order).  Each
regex `(.+)[-_]?suffix$` is applied to a cleaned name containing no
hyphen or underscore, so it reduces to: the name properly ends with
one of the listed literal suffixes (the alternatives of one pattern,
such as test/tester/testing, are mutually exclusive as endings).
The final `ml/ai engineer` patterns of the Python table capture no
group and can only match names that the `engineer` rule already
consumed, so they never alter the result and are omitted. -/
def dupSuffixGroups : List (List Str) :=
  [ ["pro".toList], ["expert".toList], ["developer".toList], ["engineer".toList],
    ["specialist".toList],
    ["architect".toList], ["architecture".toList],
    ["test".toList, "tester".toList, "testing".toList], ["qa".toList],
    ["debug".toList, "debugger".toList],
    ["troubleshoot".toList, "troubleshooter".toList],
    ["optimize".toList, "optimizer".toList], ["performance".toList] ]

/-- First pattern group whose suffix matches wins; the captured group
`(.+)` (the name minus the suffix) is returned stripped. -/
def stripFirstSuffix : List (List Str) → Str → Option Str
  | [], _ => none
  | alts :: rest, clean =>
    match alts.find? (fun suf => pyEndswith suf clean && decide (suf.length < clean.length)) with
    | some suf => some (pyStrip (clean.take (clean.length - suf.length)))
    | none => stripFirstSuffix rest clean

/-- `get_semantic_key` of intelligent_dedupe.py. -/
def get_semantic_key (name : Str) : Str :=
  let clean := pyStrip (pyLower (sepToSpace (stripNumPrefix name)))
  match stripFirstSuffix dupSuffixGroups clean with
  | some k => k
  | none => clean

/-- `re.sub(r'[^a-z0-9]', '', s.lower())`. -/
def cleanAl (s : Str) : Str :=
  (pyLower s).filter fun c => decide (('a' ≤ c ∧ c ≤ 'z') ∨ ('0' ≤ c ∧ c ≤ '9'))

/-- `name_similarity` of intelligent_dedupe.py: 0.9 on substring
containment of the cleaned names, otherwise the SequenceMatcher ratio. -/
def name_similarity (n1 n2 : Str) : ℚ :=
  let c1 := cleanAl n1
  let c2 := cleanAl n2
  if pyIn c1 c2 || pyIn c2 c1 then 9 / 10
  else seqRatio c1 c2

/-- `content_similarity` of intelligent_dedupe.py: SequenceMatcher
ratio of the lowercased first 500 characters of the two `content`
fields. -/
def content_similarity (c1 c2 : Str) : ℚ :=
  seqRatio (pyLower (c1.take 500)) (pyLower (c2.take 500))

/-- The suffix list of the fourth duplicate check. -/
def suffix5 : List Str :=
  ["pro".toList, "expert".toList, "developer".toList, "engineer".toList, "specialist".toList]

/-- `re.sub(r'[-_](pro|expert|developer|engineer|specialist)$', '', s)`:
at most one alternative can match the end of `s`, and the substitution
removes the separator together with the suffix. -/
def stripRoleSuffix (s : Str) : Str :=
  match suffix5.find? (fun suf => pyEndswith ('-' :: suf) s || pyEndswith ('_' :: suf) s) with
  | some suf => s.take (s.length - (suf.length + 1))
  | none => s

/-- The four-signal duplicate test inlined in `find_duplicates`
(lines 236-254 of intelligent_dedupe.py): same semantic key, or fuzzy
name similarity above 0.7, or fuzzy content similarity above 0.8, or
equal nonempty suffix-stripped lowercased names. -/
def is_duplicate (a1 a2 : Agent) : Bool :=
  if get_semantic_key a1.name = get_semantic_key a2.name then true
  else if (7 : ℚ) / 10 < name_similarity a1.name a2.name then true
  else if (4 : ℚ) / 5 < content_similarity a1.content a2.content then true
  else
    let n1 := stripRoleSuffix (pyLower a1.name)
    let n2 := stripRoleSuffix (pyLower a2.name)
    decide (n1 = n2) && !n1.isEmpty

/-- The grouping loop of `find_duplicates`, including singleton groups.
The Python loop walks the agent list once, skipping agents whose
`path` is already in the `processed` set; each unprocessed agent seeds
a group and the scan over the remaining unprocessed agents tests each
candidate against the seed only.  For inputs with pairwise distinct
`path`s (guaranteed by `load_agents`, which visits each file once)
membership of `agent2.path` in `processed` is equivalent to `agent2`
having joined an earlier group, so the loop is exactly this recursion:
the seed's group is the seed plus the matching remainder, and grouping
continues on the non-matching remainder. -/
def findGroupsF : Nat → List Agent → List (List Agent)
  | 0, _ => []
  | _ + 1, [] => []
  | fuel + 1, a :: rest =>
    (a :: rest.filter fun b => is_duplicate a b) ::
      findGroupsF fuel (rest.filter fun b => !is_duplicate a b)

/-- See `findGroupsF`: structured with list-length fuel so the kernel
can evaluate it; every step consumes the seed, so fuel `l.length` is
never exhausted. -/
def findGroups (l : List Agent) : List (List Agent) := findGroupsF l.length l

/-- `find_duplicates` of intelligent_dedupe.py stores only the groups
with at least two members in `self.duplicate_groups`. -/
def find_duplicates (agents : List Agent) : List (List Agent) :=
  (findGroups agents).filter fun g => decide (1 < g.length)

/-- Stable insertion sort by a numeric key, descending.  Python's
`list.sort(key=..., reverse=True)` is a stable descending sort (ties
keep their original relative order); any two stable sorts of the same
preorder coincide, so this insertion sort is an exact model. -/
def insertDesc (f : α → Nat) (a : α) : List α → List α
  | [] => [a]
  | b :: t => if f a < f b then b :: insertDesc f a t else a :: b :: t

/-- See `insertDesc`. -/
def sortDesc (f : α → Nat) : List α → List α
  | [] => []
  | a :: t => insertDesc f a (sortDesc f t)

/-- `select_best_from_groups` of intelligent_dedupe.py: agents whose
path is in no stored duplicate group are kept as unique, then each
group is sorted by quality score (descending, stable) and its first
element survives. -/
def select_best_from_groups (agents : List Agent) (groups : List (List Agent)) : List Agent :=
  let inGroups := groups.flatten.map Agent.path
  (agents.filter fun a => !inGroups.contains a.path) ++
    groups.filterMap fun g => (sortDesc Agent.quality_score g).head?

/-- The `unique_agents` list produced by running `find_duplicates`
then `select_best_from_groups`. -/
def unique_agents (agents : List Agent) : List Agent :=
  select_best_from_groups agents (find_duplicates agents)

end Ded

/-! ## collect_agents.py -/

namespace Col

/-- The `Agent` dataclass of collect_agents.py (named `AgentC` here to
keep it distinct from the intelligent_dedupe record). -/
structure AgentC where
  original_path : Str
  source_repo : Str
  name : Str
  description : Str
  content : Str
  content_hash : Str
  yaml_frontmatter : YVal
  tools : YVal
  category : Str
  subcategory : Str
  agent_id : Nat
  quality_score : Nat

/-- The named-section keyword list of the collect_agents scorer. -/
def colKeywords : List Str :=
  ["responsibilities".toList, "guidelines".toList, "process".toList,
   "steps".toList, "workflow".toList]

/-- `calculate_quality_score` of collect_agents.py.  It reads only the
frontmatter (truthiness and key presence — no description-length or
tool-count bonus) and the content; it writes nothing. -/
def calculate_quality_score (a : AgentC) : Nat :=
  (if yTruthy a.yaml_frontmatter then
      10 + (if yContains "name".toList a.yaml_frontmatter then 5 else 0)
         + (if yContains "description".toList a.yaml_frontmatter then 5 else 0)
         + (if yContains "tools".toList a.yaml_frontmatter then 5 else 0)
    else 0)
  + (if 500 < a.content.length then 5 else 0)
  + (if 1000 < a.content.length then 5 else 0)
  + (if 2000 < a.content.length then 5 else 0)
  + (if pyIn "## ".toList a.content then 3 else 0)
  + (if pyIn "### ".toList a.content then 2 else 0)
  + (if pyIn "```".toList a.content then 5 else 0)
  + colKeywords.foldl
      (fun acc kw => acc + if pyIn kw (pyLower a.content) then 2 else 0) 0

/-- The static `self.categories` taxonomy, in declaration order
(Python dicts preserve insertion order, so iteration in
`categorize_agent` visits exactly this sequence). -/
def categories : List (Str × List (Str × List Str)) :=
  [ ("languages".toList,
     [ ("python".toList, ["python".toList, "py".toList, "pip".toList, "django".toList,
         "flask".toList, "fastapi".toList]),
       ("javascript".toList, ["javascript".toList, "js".toList, "node".toList, "npm".toList]),
       ("typescript".toList, ["typescript".toList, "ts".toList, "tsx".toList]),
       ("java".toList, ["java".toList, "spring".toList, "maven".toList]),
       ("csharp".toList, ["c#".toList, "csharp".toList, "dotnet".toList, ".net".toList]),
       ("cpp".toList, ["c++".toList, "cpp".toList, "cmake".toList]),
       ("rust".toList, ["rust".toList, "cargo".toList]),
       ("go".toList, ["go".toList, "golang".toList]),
       ("ruby".toList, ["ruby".toList, "rails".toList]),
       ("php".toList, ["php".toList, "laravel".toList]),
       ("swift".toList, ["swift".toList, "ios".toList]),
       ("kotlin".toList, ["kotlin".toList, "android".toList]) ]),
    ("frameworks".toList,
     [ ("react".toList, ["react".toList, "jsx".toList, "hooks".toList]),
       ("vue".toList, ["vue".toList, "vuex".toList, "pinia".toList]),
       ("angular".toList, ["angular".toList, "rxjs".toList]),
       ("nextjs".toList, ["next".toList, "nextjs".toList, "vercel".toList]),
       ("express".toList, ["express".toList, "nodejs".toList]),
       ("django".toList, ["django".toList, "drf".toList]),
       ("flask".toList, ["flask".toList, "werkzeug".toList]),
       ("fastapi".toList, ["fastapi".toList, "pydantic".toList]),
       ("spring".toList, ["spring".toList, "boot".toList]),
       ("rails".toList, ["rails".toList, "activerecord".toList]) ]),
    ("tasks".toList,
     [ ("testing".toList, ["test".toList, "testing".toList, "tdd".toList, "bdd".toList,
         "jest".toList, "pytest".toList, "unit".toList]),
       ("debugging".toList, ["debug".toList, "fix".toList, "bug".toList, "error".toList,
         "troubleshoot".toList]),
       ("refactoring".toList, ["refactor".toList, "optimize".toList, "clean".toList,
         "improve".toList]),
       ("security".toList, ["security".toList, "audit".toList, "vulnerability".toList,
         "penetration".toList]),
       ("review".toList, ["review".toList, "code review".toList, "quality".toList]),
       ("documentation".toList, ["document".toList, "docs".toList, "readme".toList,
         "api".toList]),
       ("deployment".toList, ["deploy".toList, "ci/cd".toList, "docker".toList,
         "kubernetes".toList]),
       ("automation".toList, ["automate".toList, "automation".toList, "workflow".toList,
         "pipeline".toList]) ]),
    ("specialized".toList,
     [ ("devops".toList, ["devops".toList, "infrastructure".toList, "terraform".toList,
         "ansible".toList]),
       ("data".toList, ["data".toList, "analysis".toList, "ml".toList, "ai".toList,
         "science".toList, "pandas".toList]),
       ("mobile".toList, ["mobile".toList, "ios".toList, "android".toList,
         "react-native".toList, "flutter".toList]),
       ("cloud".toList, ["aws".toList, "azure".toList, "gcp".toList, "cloud".toList,
         "serverless".toList]),
       ("database".toList, ["database".toList, "sql".toList, "nosql".toList,
         "postgres".toList, "mongodb".toList]),
       ("frontend".toList, ["frontend".toList, "ui".toList, "ux".toList, "css".toList,
         "design".toList]),
       ("backend".toList, ["backend".toList, "api".toList, "server".toList,
         "microservice".toList]),
       ("blockchain".toList, ["blockchain".toList, "crypto".toList, "web3".toList,
         "solidity".toList]),
       ("game".toList, ["game".toList, "unity".toList, "unreal".toList, "godot".toList]),
       ("iot".toList, ["iot".toList, "embedded".toList, "arduino".toList,
         "raspberry".toList]) ]) ]

/-- Weighted score of one keyword against a record: 3 if it occurs in
the lowercased name, plus 2 for the lowercased description, plus 1 for
the lowercased first 1000 characters of the content. -/
def kwScore (a : AgentC) (kw : Str) : Nat :=
  (if pyIn kw (pyLower a.name) then 3 else 0)
  + (if pyIn kw (pyLower a.description) then 2 else 0)
  + (if pyIn kw (pyLower (a.content.take 1000)) then 1 else 0)

/-- Accumulated score of one subcategory's keyword list. -/
def subScore (a : AgentC) (kws : List Str) : Nat :=
  kws.foldl (fun acc kw => acc + kwScore a kw) 0

/-- The taxonomy flattened to `((category, subcategory), keywords)`
triples in declaration order. -/
def pairsList : List ((Str × Str) × List Str) :=
  categories.flatMap fun cat => cat.2.map fun sub => ((cat.1, sub.1), sub.2)

/-- One step of the best-pair accumulation of `categorize_agent`:
replace the running best exactly on a strictly greater score. -/
def bestStep (a : AgentC) (best : (Str × Str) × Nat) (p : (Str × Str) × List Str) :
    (Str × Str) × Nat :=
  if best.2 < subScore a p.2 then (p.1, subScore a p.2) else best

/-- `categorize_agent` of collect_agents.py: the nested loops over the
taxonomy, starting from `("specialized", "general")` at score 0 and
keeping the first strictly-best pair. -/
def categorize_agent (a : AgentC) : Str × Str :=
  (pairsList.foldl (bestStep a) (("specialized".toList, "general".toList), 0)).1

/-- `similarity_score` of collect_agents.py: the weighted average
`0.3 * name + 0.2 * description + 0.5 * content[:500]` of three
SequenceMatcher ratios (no lowercasing, no cleaning).  Python float
arithmetic is modelled with exact rationals. -/
def similarity_score (a1 a2 : AgentC) : ℚ :=
  seqRatio a1.name a2.name * (3 / 10)
  + seqRatio a1.description a2.description * (1 / 5)
  + seqRatio (a1.content.take 500) (a2.content.take 500) * (1 / 2)

/-- Does the candidate `a` match the seed (first element) of group `g`
with similarity above 0.8?  Groups are nonempty by construction. -/
def matchesSeed (a : AgentC) (g : List AgentC) : Bool :=
  match g with
  | [] => false
  | seed :: _ => decide ((4 : ℚ) / 5 < similarity_score a seed)

/-- Insert one agent into the group list of `find_duplicates` of
collect_agents.py: scan the existing groups in creation order, join
the first whose seed matches, else open a new group at the end. -/
def addToGroups : List (List AgentC) → AgentC → List (List AgentC)
  | [], a => [[a]]
  | g :: rest, a =>
    if matchesSeed a g then (g ++ [a]) :: rest else g :: addToGroups rest a

/-- The grouping pass of `find_duplicates` of collect_agents.py. -/
def buildGroups (agents : List AgentC) : List (List AgentC) :=
  agents.foldl addToGroups []

/-- The selection pass of `find_duplicates` of collect_agents.py:
groups with several members are sorted by quality score (descending,
stable) and their first element is kept; singleton groups keep their
only member — in both cases the head of the stable descending sort. -/
def col_unique (agents : List AgentC) : List AgentC :=
  (buildGroups agents).filterMap fun g => (Ded.sortDesc AgentC.quality_score g).head?

end Col

/-! ## General helper lemmas -/

theorem pyIn_nil (s : Str) : pyIn [] s = true := by
  induction s with
  | nil => rfl
  | cons c rest ih => simp [pyIn, pyStartswith]

/-- Lowercasing commutes with taking a prefix (both act pointwise /
positionally). -/
theorem pyLower_take (n : Nat) (s : Str) : pyLower (s.take n) = (pyLower s).take n := by
  simp [pyLower, List.map_take]

namespace Ded

/-- A verdict from the fuzzy-name signal alone forces `is_duplicate`. -/
theorem is_duplicate_of_name (a1 a2 : Agent)
    (h : (7 : ℚ) / 10 < name_similarity a1.name a2.name) : is_duplicate a1 a2 = true := by
  unfold is_duplicate
  by_cases hk : get_semantic_key a1.name = get_semantic_key a2.name <;> simp [hk, h]

/-- A verdict from the content signal alone forces `is_duplicate`. -/
theorem is_duplicate_of_content (a1 a2 : Agent)
    (h : (4 : ℚ) / 5 < content_similarity a1.content a2.content) :
    is_duplicate a1 a2 = true := by
  unfold is_duplicate
  by_cases hk : get_semantic_key a1.name = get_semantic_key a2.name
  · simp [hk]
  · by_cases hn : (7 : ℚ) / 10 < name_similarity a1.name a2.name <;> simp [hk, hn, h]

/-- A verdict from the suffix-stripping signal alone forces
`is_duplicate`. -/
theorem is_duplicate_of_suffix (a1 a2 : Agent)
    (h1 : stripRoleSuffix (pyLower a1.name) = stripRoleSuffix (pyLower a2.name))
    (h2 : stripRoleSuffix (pyLower a1.name) ≠ []) : is_duplicate a1 a2 = true := by
  unfold is_duplicate
  by_cases hk : get_semantic_key a1.name = get_semantic_key a2.name
  · simp [hk]
  · by_cases hn : (7 : ℚ) / 10 < name_similarity a1.name a2.name
    · simp [hk, hn]
    · by_cases hc : (4 : ℚ) / 5 < content_similarity a1.content a2.content <;>
        simp [hk, hn, hc, h1, List.isEmpty_eq_false.mpr (h1 ▸ h2)]

end Ded

/-! ## Concrete sample records used by witnesses and counterexamples -/

/-- A minimal intelligent_dedupe record. -/
def mkAgent (p : Nat) (nm ct : String) : Ded.Agent :=
  { path := p, name := nm.toList, content := ct.toList, yaml_data := .dict []
    quality_score := 0, content_length := ct.length, has_yaml := false
    has_tools := false, has_structure := false, has_examples := false
    source_repo := [] }

/-- Sample record whose name has the cleaned form "xxxxtide". -/
def exTide : Ded.Agent := mkAgent 1 "xxxxtide" "aaaa"

/-- Sample record whose name has the cleaned form "xxxxdiet". -/
def exDiet : Ded.Agent := mkAgent 2 "xxxxdiet" "bbbb"

/-- Sample record whose name has no alphanumeric characters. -/
def exNoAlnum : Ded.Agent := mkAgent 3 "@@@" "cccc"

/-- Sample record with an unrelated name. -/
def exPython : Ded.Agent := mkAgent 4 "python-pro" "dddd"

/-! ## C10 — empty cleaned names always trigger the fuzzy-name signal -/

/-- C10: if at least one of two display names has no alphanumeric
characters (its cleaned form is empty), `name_similarity` returns 0.9
by the substring rule, which exceeds the 0.7 threshold, and any record
with such a name is judged a duplicate of every record it is compared
with, in either argument order. -/
theorem claim_C10 :
    (∀ n1 n2 : Str, Ded.cleanAl n1 = [] ∨ Ded.cleanAl n2 = [] →
      Ded.name_similarity n1 n2 = 9 / 10 ∧ (7 : ℚ) / 10 < Ded.name_similarity n1 n2) ∧
    (∀ a1 a2 : Ded.Agent, Ded.cleanAl a1.name = [] ∨ Ded.cleanAl a2.name = [] →
      Ded.is_duplicate a1 a2 = true) := by
  have key : ∀ n1 n2 : Str, Ded.cleanAl n1 = [] ∨ Ded.cleanAl n2 = [] →
      Ded.name_similarity n1 n2 = 9 / 10 := by
    intro n1 n2 h
    unfold Ded.name_similarity
    rcases h with h | h <;> simp [h, pyIn_nil]
  refine ⟨fun n1 n2 h => ⟨key n1 n2 h, ?_⟩, fun a1 a2 h => ?_⟩
  · rw [key n1 n2 h]; norm_num
  · exact Ded.is_duplicate_of_name a1 a2 (by rw [key _ _ h]; norm_num)

/-- C10 witness: the record named "@@@" (no alphanumeric characters)
is judged a duplicate of the record named "python-pro". -/
theorem claim_C10_witness :
    (Ded.cleanAl exPython.name = [] ∨ Ded.cleanAl exNoAlnum.name = []) ∧
    Ded.is_duplicate exPython exNoAlnum = true :=
  ⟨Or.inr (by decide), claim_C10.2 exPython exNoAlnum (Or.inr (by decide))⟩

/-- C2 and C1 use small concrete agent lists in their witnesses. -/
def exList : List Ded.Agent := [exPython, mkAgent 5 "python-expert" "eeee", exTide]

/-! ## C5 — the duplicate verdict is not symmetric -/

/-- C5 counterexample: the Similarity Engine verdict is order
dependent.  The records named "xxxxtide" and "xxxxdiet" (distinct
semantic keys, unrelated contents) are not duplicates in one order but
are duplicates in the other: `SequenceMatcher` ratio is asymmetric
(5/8 versus 3/4 here, straddling the 0.7 name threshold). -/
theorem claim_C5_counterexample :
    Ded.is_duplicate exTide exDiet = false ∧ Ded.is_duplicate exDiet exTide = true ∧
    Ded.name_similarity exTide.name exDiet.name = 5 / 8 ∧
    Ded.name_similarity exDiet.name exTide.name = 3 / 4 := by
  refine ⟨?_, ?_, ?_, ?_⟩ <;> with_unfolding_all decide

/-- C5 amended: of the four OR-combined signals, semantic-key
equality, the substring rule of the fuzzy-name signal and the
suffix-stripped equality check are symmetric, and any of them forces
the duplicate verdict in both argument orders; only the two
SequenceMatcher-ratio comparisons are order sensitive. -/
theorem claim_C5_amended (a1 a2 : Ded.Agent)
    (h : Ded.get_semantic_key a1.name = Ded.get_semantic_key a2.name ∨
      (pyIn (Ded.cleanAl a1.name) (Ded.cleanAl a2.name) = true ∨
       pyIn (Ded.cleanAl a2.name) (Ded.cleanAl a1.name) = true) ∨
      (Ded.stripRoleSuffix (pyLower a1.name) = Ded.stripRoleSuffix (pyLower a2.name) ∧
       Ded.stripRoleSuffix (pyLower a1.name) ≠ [])) :
    Ded.is_duplicate a1 a2 = true ∧ Ded.is_duplicate a2 a1 = true := by
  rcases h with h | h | ⟨h1, h2⟩
  · constructor
    · unfold Ded.is_duplicate; rw [if_pos h]
    · unfold Ded.is_duplicate; rw [if_pos h.symm]
  · have hs : Ded.name_similarity a1.name a2.name = 9 / 10 ∧
        Ded.name_similarity a2.name a1.name = 9 / 10 := by
      unfold Ded.name_similarity
      rcases h with h | h <;> simp [h]
    exact ⟨Ded.is_duplicate_of_name a1 a2 (by rw [hs.1]; norm_num),
           Ded.is_duplicate_of_name a2 a1 (by rw [hs.2]; norm_num)⟩
  · exact ⟨Ded.is_duplicate_of_suffix a1 a2 h1 h2,
           Ded.is_duplicate_of_suffix a2 a1 h1.symm (h1 ▸ h2)⟩

/-- C5 amended witness: "python-pro" and "python-expert" share the
semantic key "python", so both orders judge them duplicates. -/
theorem claim_C5_amended_witness :
    Ded.is_duplicate exPython (mkAgent 5 "python-expert" "eeee") = true ∧
    Ded.is_duplicate (mkAgent 5 "python-expert" "eeee") exPython = true :=
  claim_C5_amended exPython (mkAgent 5 "python-expert" "eeee") (Or.inl (by decide))

/-! ## C7 — the intelligent_dedupe scorer writes `has_examples` and
can raise on non-mapping frontmatter -/

/-- Sample record containing a fenced code block and with
`has_examples` initially false. -/
def exScore : Ded.Agent := mkAgent 6 "scored" "Intro\n```\ncode\n```\ndone"

/-- Sample record whose frontmatter parsed to a truthy scalar that
contains the substring "description", as the loader stores it (the
`yaml_data or \x7b\x7d` fallback keeps truthy non-mapping parses, and
`has_yaml = bool(yaml_data)` is then true): e.g. the file
`---\nsome description text\n---\nbody`. -/
def exRaise : Ded.Agent :=
  { mkAgent 11 "raiser" "body" with
      yaml_data := .s "some description text".toList, has_yaml := true }

/-- C7 counterexample: scoring is not write-free.  On a record whose
content contains a code fence, `calculate_quality_score` of
intelligent_dedupe.py sets the record's `has_examples` field, so the
record after scoring differs from the record before. -/
theorem claim_C7_counterexample :
    (Ded.calculate_quality_score exScore).2.has_examples = true ∧
    exScore.has_examples = false ∧
    (Ded.calculate_quality_score exScore).2 ≠ exScore := by
  refine ⟨by decide, by decide, fun h => ?_⟩
  have h2 := congrArg Ded.Agent.has_examples h
  rw [show (Ded.calculate_quality_score exScore).2.has_examples = true by decide] at h2
  exact Bool.noConfusion (h2.trans (show exScore.has_examples = false by decide))

/-- A value other than `None` has a Python `len`. -/
theorem yLenE_isSome (v : YVal) (hv : v ≠ YVal.null) : ∃ k, yLenE v = some k := by
  cases v with
  | s w => exact ⟨w.length, rfl⟩
  | arr w => exact ⟨w.length, rfl⟩
  | dict w => exact ⟨w.length, rfl⟩
  | null => exact absurd rfl hv

/-- `get` on a mapping whose stored values are not `None`, with a
non-`None` default, retrieves a non-`None` value. -/
theorem yGet_ne_null (key : Str) (dflt : YVal) (d : List (Str × YVal))
    (hd : ∀ kv ∈ d, kv.2 ≠ YVal.null) (hdflt : dflt ≠ YVal.null) :
    yGet key dflt (YVal.dict d) ≠ YVal.null := by
  have hu : yGet key dflt (YVal.dict d) =
      match d.find? (fun kv => decide (kv.1 = key)) with
      | some kv => kv.2
      | none => dflt := rfl
  rw [hu]
  cases hf : d.find? (fun kv => decide (kv.1 = key)) with
  | none => exact hdflt
  | some kv => exact hd kv (List.mem_of_find?_eq_some hf)

/-- `Option.bind` over a present value, as a rewriting equation. -/
theorem some_bind_eq {α β : Type} (x : α) (f : α → Option β) :
    (Option.some x).bind f = f x := rfl

/-- `Option.map` over a present value, as a rewriting equation. -/
theorem some_map_eq {α β : Type} (x : α) (f : α → β) :
    (Option.some x).map f = Option.some (f x) := rfl

/-- A returning membership test returns the `yContains` value. -/
theorem yContainsE_eq_some (key : Str) (v : YVal) (b : Bool)
    (h : yContainsE key v = some b) : b = yContains key v := by
  cases v with
  | s w => exact (Option.some.inj h).symm
  | arr w => exact (Option.some.inj h).symm
  | dict w => exact (Option.some.inj h).symm
  | null => exact Option.noConfusion h

/-- A returning `get` call returns the `yGet` value. -/
theorem yGetE_eq_some (key : Str) (dflt : YVal) (v : YVal) (w : YVal)
    (h : yGetE key dflt v = some w) : w = yGet key dflt v := by
  cases v with
  | s x => exact Option.noConfusion h
  | arr x => exact Option.noConfusion h
  | dict x => exact (Option.some.inj h).symm
  | null => exact Option.noConfusion h

/-- A returning `len` call returns the `yLen` value. -/
theorem yLenE_eq_some (v : YVal) (k : Nat)
    (h : yLenE v = some k) : k = yLen v := by
  cases v with
  | s w => exact (Option.some.inj h).symm
  | arr w => exact (Option.some.inj h).symm
  | dict w => exact (Option.some.inj h).symm
  | null => exact Option.noConfusion h

/-- A value returned by the frontmatter block is the frontmatter
summand of the success-path scorer. -/
theorem yamlScoreE_val (a : Ded.Agent) (n : Nat) (h : Ded.yamlScoreE a = some n) :
    n = (if a.has_yaml then
          5 + (if yContains "name".toList a.yaml_data then 5 else 0)
            + (if yContains "description".toList a.yaml_data then
                5 + (if 100 < yLen (yGet "description".toList (.s []) a.yaml_data) then 5
                     else if 50 < yLen (yGet "description".toList (.s []) a.yaml_data) then 3
                     else 0)
               else 0)
            + (if yContains "tools".toList a.yaml_data then
                5 + (if 5 < yLen (yGet "tools".toList (.arr []) a.yaml_data) then 5
                     else if 2 < yLen (yGet "tools".toList (.arr []) a.yaml_data) then 3
                     else 0)
               else 0)
         else 0) := by
  unfold Ded.yamlScoreE at h
  cases hy : a.has_yaml with
  | false =>
    rw [hy] at h
    simp at h ⊢
    omega
  | true =>
    rw [hy] at h
    rw [if_pos rfl] at h
    rw [if_pos rfl]
    simp only [Option.bind_eq_some, Option.map_eq_some'] at h
    obtain ⟨cn, hcn, cd, hcd, sd, hsd, ct, hct, st, hst, h⟩ := h
    have hcn' : cn = yContains "name".toList a.yaml_data :=
      yContainsE_eq_some _ _ _ hcn
    have hcd' : cd = yContains "description".toList a.yaml_data :=
      yContainsE_eq_some _ _ _ hcd
    have hct' : ct = yContains "tools".toList a.yaml_data :=
      yContainsE_eq_some _ _ _ hct
    have hsd' : sd = (if yContains "description".toList a.yaml_data then
        5 + (if 100 < yLen (yGet "description".toList (.s []) a.yaml_data) then 5
             else if 50 < yLen (yGet "description".toList (.s []) a.yaml_data) then 3
             else 0)
       else 0) := by
      rw [← hcd']
      cases cd with
      | false => simp at hsd ⊢; omega
      | true =>
        rw [if_pos rfl] at hsd
        rw [if_pos rfl]
        simp only [Option.bind_eq_some, Option.map_eq_some'] at hsd
        obtain ⟨dv, hdv, dl, hdl, hsd⟩ := hsd
        rw [← hsd, yLenE_eq_some _ _ hdl, yGetE_eq_some _ _ _ _ hdv]
    have hst' : st = (if yContains "tools".toList a.yaml_data then
        5 + (if 5 < yLen (yGet "tools".toList (.arr []) a.yaml_data) then 5
             else if 2 < yLen (yGet "tools".toList (.arr []) a.yaml_data) then 3
             else 0)
       else 0) := by
      rw [← hct']
      cases ct with
      | false => simp at hst ⊢; omega
      | true =>
        rw [if_pos rfl] at hst
        rw [if_pos rfl]
        simp only [Option.bind_eq_some, Option.map_eq_some'] at hst
        obtain ⟨tv, htv, tc, htc, hst⟩ := hst
        rw [← hst, yLenE_eq_some _ _ htc, yGetE_eq_some _ _ _ _ htv]
    rw [← h, hcn', hsd', hst']

/-- When the frontmatter block returns a value (no raise), the fallible
scorer returns exactly the success-path scorer's pair. -/
theorem yamlScoreE_some_eq (a : Ded.Agent) (n : Nat) (h : Ded.yamlScoreE a = some n) :
    Ded.calculate_quality_scoreE a = some (Ded.calculate_quality_score a) := by
  have hval := yamlScoreE_val a n h
  unfold Ded.calculate_quality_scoreE
  rw [h, hval]
  rfl

/-- Whenever the fallible scorer returns, it returns the success-path
scorer's pair. -/
theorem scoreE_some_eq (a : Ded.Agent) (r : Nat × Ded.Agent)
    (h : Ded.calculate_quality_scoreE a = some r) :
    r = Ded.calculate_quality_score a := by
  cases hn : Ded.yamlScoreE a with
  | none =>
    unfold Ded.calculate_quality_scoreE at h
    rw [hn] at h
    simp at h
  | some n =>
    have h2 := yamlScoreE_some_eq a n hn
    rw [h] at h2
    exact Option.some.inj h2

/-- A record without frontmatter never raises in the frontmatter
block. -/
theorem yamlScoreE_of_no_yaml (a : Ded.Agent) (h : a.has_yaml = false) :
    Ded.yamlScoreE a = some 0 := by
  unfold Ded.yamlScoreE
  rw [h]
  rfl

/-- A mapping frontmatter with no `None` values never raises in the
frontmatter block. -/
theorem yamlScoreE_dict_isSome (a : Ded.Agent) (d : List (Str × YVal))
    (hv : a.yaml_data = YVal.dict d) (hd : ∀ kv ∈ d, kv.2 ≠ YVal.null) :
    (Ded.yamlScoreE a).isSome = true := by
  unfold Ded.yamlScoreE
  rw [hv]
  cases hy : a.has_yaml with
  | false => rfl
  | true =>
    rw [if_pos rfl]
    obtain ⟨dk, hdk⟩ :=
      yLenE_isSome _ (yGet_ne_null "description".toList (.s []) d hd (by simp))
    obtain ⟨tk, htk⟩ :=
      yLenE_isSome _ (yGet_ne_null "tools".toList (.arr []) d hd (by simp))
    have e1 : yContainsE "name".toList (YVal.dict d)
        = some (yContains "name".toList (YVal.dict d)) := rfl
    have e2 : yContainsE "description".toList (YVal.dict d)
        = some (yContains "description".toList (YVal.dict d)) := rfl
    have e3 : yContainsE "tools".toList (YVal.dict d)
        = some (yContains "tools".toList (YVal.dict d)) := rfl
    have e4 : yGetE "description".toList (YVal.s []) (YVal.dict d)
        = some (yGet "description".toList (YVal.s []) (YVal.dict d)) := rfl
    have e5 : yGetE "tools".toList (YVal.arr []) (YVal.dict d)
        = some (yGet "tools".toList (YVal.arr []) (YVal.dict d)) := rfl
    simp only [e1, e2, e3, e4, e5, hdk, htk, some_bind_eq, some_map_eq]
    by_cases hcd : yContains "description".toList (YVal.dict d) = true
    · rw [if_pos hcd]
      simp only [some_bind_eq]
      by_cases hct : yContains "tools".toList (YVal.dict d) = true
      · rw [if_pos hct]; rfl
      · rw [if_neg hct]; rfl
    · rw [if_neg hcd]
      simp only [some_bind_eq]
      by_cases hct : yContains "tools".toList (YVal.dict d) = true
      · rw [if_pos hct]; rfl
      · rw [if_neg hct]; rfl

/-- The frontmatter block reads only the `has_yaml` flag and the
`yaml_data` field, which the scorer's record update leaves unchanged. -/
theorem yamlScoreE_set_examples (a : Ded.Agent) :
    Ded.yamlScoreE { a with has_examples := true } = Ded.yamlScoreE a := rfl

/-- The record returned by the success-path scorer. -/
theorem score_frame (a : Ded.Agent) :
    (Ded.calculate_quality_score a).2 =
      if Ded.examplesCond a then { a with has_examples := true } else a := rfl

/-- Rescoring the record returned by the success-path scorer returns
the same score and record. -/
theorem score_idem (a : Ded.Agent) :
    Ded.calculate_quality_score (Ded.calculate_quality_score a).2 =
      Ded.calculate_quality_score a := by
  by_cases hc : Ded.examplesCond a <;>
    simp [Ded.calculate_quality_score, Ded.examplesCond] at hc ⊢ <;>
    simp [hc]

/-- On the success path the returned record differs from the input at
most in `has_examples`, set exactly when the examples test fires, and
rescoring the returned record returns the same pair. -/
theorem scoreE_rescore (a : Ded.Agent) (r : Nat × Ded.Agent)
    (h : Ded.calculate_quality_scoreE a = some r) :
    (r.2 = a ∨ r.2 = { a with has_examples := true }) ∧
    r.2.has_examples = (a.has_examples || Ded.examplesCond a) ∧
    Ded.calculate_quality_scoreE r.2 = some r := by
  have hr := scoreE_some_eq a r h
  cases hn : Ded.yamlScoreE a with
  | none =>
    unfold Ded.calculate_quality_scoreE at h
    rw [hn] at h
    simp at h
  | some n =>
    have hframe : r.2 = if Ded.examplesCond a then { a with has_examples := true } else a := by
      rw [hr, score_frame]
    by_cases hc : Ded.examplesCond a = true
    · have h2 : r.2 = { a with has_examples := true } := by rw [hframe, if_pos hc]
      refine ⟨Or.inr h2, ?_, ?_⟩
      · rw [h2, hc]
        simp
      · have hys : Ded.yamlScoreE r.2 = some n := by
          rw [h2, yamlScoreE_set_examples]
          exact hn
        rw [yamlScoreE_some_eq r.2 n hys, hr]
        exact congrArg some (score_idem a)
    · have hcf : Ded.examplesCond a = false := by simpa using hc
      have h2 : r.2 = a := by rw [hframe, hcf]; rfl
      refine ⟨Or.inl h2, ?_, ?_⟩
      · rw [h2, hcf]
        simp
      · have hys : Ded.yamlScoreE r.2 = some n := by rw [h2]; exact hn
        rw [yamlScoreE_some_eq r.2 n hys, hr]
        exact congrArg some (score_idem a)

/-- C7 amended: scoring is deterministic but neither write-free nor
total.  With the frontmatter block's error paths modelled
(`calculate_quality_scoreE`): whenever the intelligent_dedupe scorer
returns, it returns the nonnegative score and record of
`calculate_quality_score`; the returned record differs from the input
at most in `has_examples` (set exactly when the examples test fires)
and rescoring it returns the same pair; a record without frontmatter,
and a record whose frontmatter is a mapping with no `None` values, is
always scored; but on a record whose truthy scalar frontmatter
contains the substring "description" the membership test succeeds and
the following `get` attribute call raises, so the scorer does not
return on every record the loader can feed it.  The collect_agents
scorer reads only the frontmatter and the content and writes
nothing. -/
theorem claim_C7_amended :
    (∀ (a : Ded.Agent) (r : Nat × Ded.Agent),
       Ded.calculate_quality_scoreE a = some r → r = Ded.calculate_quality_score a) ∧
    (∀ (a : Ded.Agent) (r : Nat × Ded.Agent),
       Ded.calculate_quality_scoreE a = some r →
       (r.2 = a ∨ r.2 = { a with has_examples := true }) ∧
       r.2.has_examples = (a.has_examples || Ded.examplesCond a) ∧
       Ded.calculate_quality_scoreE r.2 = some r) ∧
    (∀ a : Ded.Agent, a.has_yaml = false →
       Ded.calculate_quality_scoreE a = some (Ded.calculate_quality_score a)) ∧
    (∀ (a : Ded.Agent) (d : List (Str × YVal)),
       a.yaml_data = YVal.dict d → (∀ kv ∈ d, kv.2 ≠ YVal.null) →
       Ded.calculate_quality_scoreE a = some (Ded.calculate_quality_score a)) ∧
    Ded.calculate_quality_scoreE exRaise = none ∧
    (∀ a b : Col.AgentC, a.yaml_frontmatter = b.yaml_frontmatter →
       a.content = b.content →
       Col.calculate_quality_score a = Col.calculate_quality_score b) := by
  refine ⟨scoreE_some_eq, scoreE_rescore, ?_, ?_, ?_, ?_⟩
  · intro a h
    exact yamlScoreE_some_eq a 0 (yamlScoreE_of_no_yaml a h)
  · intro a d hv hd
    obtain ⟨n, hn⟩ := Option.isSome_iff_exists.mp (yamlScoreE_dict_isSome a d hv hd)
    exact yamlScoreE_some_eq a n hn
  · with_unfolding_all rfl
  · intro a b h1 h2
    unfold Col.calculate_quality_score
    rw [h1, h2]

/-- C7 amended witness: the code-fence record has no frontmatter, so
the fallible scorer returns the success-path pair on it, and rescoring
the returned record returns the same pair. -/
theorem claim_C7_amended_witness :
    Ded.calculate_quality_scoreE exScore = some (Ded.calculate_quality_score exScore) ∧
    Ded.calculate_quality_scoreE (Ded.calculate_quality_score exScore).2 =
      some (Ded.calculate_quality_score exScore) :=
  ⟨claim_C7_amended.2.2.1 exScore (by decide),
   (claim_C7_amended.2.1 exScore (Ded.calculate_quality_score exScore)
     (by with_unfolding_all rfl)).2.2⟩

/-! ## C6 — the content signal compares raw content, not body_content -/

/-- The content-similarity duplicate signal as the claim states it:
sequence similarity ratio over the lowercased first 500 characters of
each record's body_content (the raw text with the header block
removed), exceeding the threshold 0.8. -/
def claimedContentSignal (a1 a2 : Ded.Agent) : Prop :=
  (4 : ℚ) / 5 < seqRatio (pyLower ((extract_yaml a1.content).2.take 500))
    (pyLower ((extract_yaml a2.content).2.take 500))

/-- The content-similarity duplicate signal as the code computes it:
the third test of `find_duplicates`, over the `content` fields, which
`load_agents` fills with the raw file text (header block included). -/
def codeContentSignal (a1 a2 : Ded.Agent) : Prop :=
  (4 : ℚ) / 5 < Ded.content_similarity a1.content a2.content

/-- The amended reading of the signal: case-insensitive sequence
similarity over the first 500 characters of each record's raw content
(the full document text, header block included), threshold 0.8. -/
def amendedContentSignal (a1 a2 : Ded.Agent) : Prop :=
  (4 : ℚ) / 5 < seqRatio ((pyLower a1.content).take 500) ((pyLower a2.content).take 500)

/-- Record whose raw content is a 13-character header block followed
by the body "zz". -/
def exHdrZ : Ded.Agent := mkAgent 7 "hz" "---\nk: v\n---\nzz"

/-- Record with the same header block and the unrelated body "yy". -/
def exHdrY : Ded.Agent := mkAgent 8 "hy" "---\nk: v\n---\nyy"

/-- C6 counterexample: two records sharing only a header block.  Their
bodies ("zz" and "yy") have similarity 0, so under the claim's
body_content reading the signal would not fire; the code compares the
raw contents, whose shared 13-character header pushes the ratio to
13/15 > 0.8, so the signal does fire. -/
theorem claim_C6_counterexample :
    codeContentSignal exHdrZ exHdrY ∧ ¬ claimedContentSignal exHdrZ exHdrY ∧
    (extract_yaml exHdrZ.content).2 = "zz".toList ∧
    (extract_yaml exHdrY.content).2 = "yy".toList := by
  refine ⟨?_, ?_, ?_, ?_⟩
  · unfold codeContentSignal; with_unfolding_all decide
  · unfold claimedContentSignal; with_unfolding_all decide
  · decide
  · decide

/-- C6 amended: the signal equals the case-insensitive 500-character
ratio test over the raw contents (threshold 0.8), and whenever it
fires the pair is judged duplicates. -/
theorem claim_C6_amended (a1 a2 : Ded.Agent) :
    (codeContentSignal a1 a2 ↔ amendedContentSignal a1 a2) ∧
    (codeContentSignal a1 a2 → Ded.is_duplicate a1 a2 = true) := by
  constructor
  · unfold codeContentSignal amendedContentSignal Ded.content_similarity
    rw [pyLower_take, pyLower_take]
  · exact fun h => Ded.is_duplicate_of_content a1 a2 h

/-- C6 amended witness: the header-sharing pair fires the signal and
is judged duplicates. -/
theorem claim_C6_amended_witness :
    codeContentSignal exHdrZ exHdrY ∧ Ded.is_duplicate exHdrZ exHdrY = true :=
  ⟨by unfold codeContentSignal; with_unfolding_all decide,
   (claim_C6_amended exHdrZ exHdrY).2
     (by unfold codeContentSignal; with_unfolding_all decide)⟩

/-! ## C9 — the parser cuts at substring occurrences, not delimiter lines -/

/-- The parser precondition as the claim states it: the text begins
with a line consisting solely of three hyphens, and a second such
delimiter line occurs later. -/
def claimedHeaderCond (c : Str) : Bool :=
  match pySplit ['\n'] c.length c with
  | [] => false
  | first :: rest => decide (first = "---".toList) && decide ("---".toList ∈ rest)

/-- Text whose only delimiter-like line is the first one; the second
`---` occurrence sits inside the line "---rest". -/
def exNoDelim : Str := "---\nk: v\n---rest".toList

/-- C9 counterexample: on a text with no second delimiter line the
claim requires the parser to return an empty header and the raw text
unchanged, but the code cuts at the substring occurrence inside
"---rest": it returns the parsed mapping and the body "rest". -/
theorem claim_C9_counterexample :
    claimedHeaderCond exNoDelim = false ∧
    (extract_yaml exNoDelim).2 = "rest".toList ∧
    (extract_yaml exNoDelim).2 ≠ exNoDelim ∧
    yTruthy (extract_yaml exNoDelim).1 = true := by
  refine ⟨?_, ?_, ?_, ?_⟩ <;> decide

/-- C9 amended: the parser returns the empty header and the raw text
unchanged unless the text starts with the three characters `---` and
`content.split('---', 2)` yields three parts; in that case the middle
part is parsed, a parse failure falls back to the empty header with
the raw text unchanged, and on success the header is the parsed value
(an empty mapping if it is falsy) and the body is the stripped third
part.  The function is total, so no exception propagates. -/
theorem claim_C9_amended (c : Str) :
    (¬ (pyStartswith "---".toList c = true ∧
        ∃ p0 p1 p2 r, pySplit "---".toList 2 c = p0 :: p1 :: p2 :: r) →
      extract_yaml c = (YVal.dict [], c)) ∧
    (∀ p0 p1 p2 r, pyStartswith "---".toList c = true →
      pySplit "---".toList 2 c = p0 :: p1 :: p2 :: r →
      yamlSafeLoad p1 = none → extract_yaml c = (YVal.dict [], c)) ∧
    (∀ p0 p1 p2 r y, pyStartswith "---".toList c = true →
      pySplit "---".toList 2 c = p0 :: p1 :: p2 :: r →
      yamlSafeLoad p1 = some y →
      extract_yaml c = ((if yTruthy y then y else .dict []), pyStrip p2)) := by
  refine ⟨fun hn => ?_, fun p0 p1 p2 r hs hsp hy => ?_, fun p0 p1 p2 r y hs hsp hy => ?_⟩
  · unfold extract_yaml
    by_cases hs : pyStartswith "---".toList c = true
    · rw [if_pos hs]
      rcases hsp : pySplit "---".toList 2 c with _ | ⟨p0, _ | ⟨p1, _ | ⟨p2, r⟩⟩⟩
      · rfl
      · rfl
      · rfl
      · exact absurd ⟨hs, p0, p1, p2, r, hsp⟩ hn
    · rw [if_neg hs]
  · unfold extract_yaml
    rw [if_pos hs, hsp]
    simp only [hy]
  · unfold extract_yaml
    rw [if_pos hs, hsp]
    simp only [hy]

/-- C9 amended witness: a text with no leading `---` is returned
unchanged with an empty header, and a text whose header block is
malformed (a mapping line followed by a plain line) falls back to the
empty header with the raw text unchanged. -/
theorem claim_C9_witness :
    extract_yaml "no header".toList = (YVal.dict [], "no header".toList) ∧
    extract_yaml "---\na: b\nplain\n---\nx".toList =
      (YVal.dict [], "---\na: b\nplain\n---\nx".toList) :=
  ⟨(claim_C9_amended "no header".toList).1 (fun h => absurd h.1 (by decide)),
   (claim_C9_amended "---\na: b\nplain\n---\nx".toList).2.1
     [] "\na: b\nplain\n".toList "\nx".toList [] (by decide) rfl rfl⟩

/-! ## C3 — the resolver picks the earliest record of maximal score -/

/-- Largest key value occurring in a list (0 for the empty list). -/
def maxQ (f : α → Nat) (l : List α) : Nat :=
  l.foldr (fun a m => max (f a) m) 0

theorem maxQ_cons (f : α → Nat) (a : α) (t : List α) :
    maxQ f (a :: t) = max (f a) (maxQ f t) := rfl

theorem le_maxQ (f : α → Nat) {l : List α} {a : α} (h : a ∈ l) : f a ≤ maxQ f l := by
  induction l with
  | nil => cases h
  | cons b t ih =>
    rcases List.mem_cons.mp h with rfl | h
    · exact le_max_left _ _
    · exact le_trans (ih h) (le_max_right _ _)

theorem maxQ_attained (f : α → Nat) {l : List α} (h : l ≠ []) :
    ∃ a ∈ l, f a = maxQ f l := by
  induction l with
  | nil => exact absurd rfl h
  | cons b t ih =>
    rcases t with _ | ⟨c, t⟩
    · exact ⟨b, List.mem_singleton_self b, (Nat.max_eq_left (Nat.zero_le _)).symm⟩
    · rcases ih (List.cons_ne_nil c t) with ⟨a, ha, hfa⟩
      by_cases hle : maxQ f (c :: t) ≤ f b
      · exact ⟨b, List.mem_cons_self b _, (Nat.max_eq_left hle).symm⟩
      · exact ⟨a, List.mem_cons_of_mem b ha,
          hfa.trans (Nat.max_eq_right (Nat.le_of_not_le hle)).symm⟩

theorem insertDesc_perm (f : α → Nat) (a : α) (s : List α) :
    (Ded.insertDesc f a s).Perm (a :: s) := by
  induction s with
  | nil => exact List.Perm.refl _
  | cons b t ih =>
    simp only [Ded.insertDesc]
    split
    · exact ((ih.cons b).trans (List.Perm.swap a b t))
    · exact List.Perm.refl _

theorem sortDesc_perm (f : α → Nat) (l : List α) : (Ded.sortDesc f l).Perm l := by
  induction l with
  | nil => exact List.Perm.refl _
  | cons a t ih => exact (insertDesc_perm f a (Ded.sortDesc f t)).trans (ih.cons a)

theorem insertDesc_head (f : α → Nat) (a : α) (s : List α) :
    (Ded.insertDesc f a s).head? =
      some (match s.head? with
            | none => a
            | some b => if f a < f b then b else a) := by
  cases s with
  | nil => rfl
  | cons b t => by_cases hab : f a < f b <;> simp [Ded.insertDesc, hab]

/-- The head of the stable descending sort is the first element of the
original list attaining the maximal key. -/
theorem sortDesc_head_find (f : α → Nat) (l : List α) :
    (Ded.sortDesc f l).head? = l.find? (fun a => decide (f a = maxQ f l)) := by
  induction l with
  | nil => rfl
  | cons a t ih =>
    by_cases hle : maxQ f t ≤ f a
    · have hmax : maxQ f (a :: t) = f a := by
        rw [maxQ_cons]; exact Nat.max_eq_left hle
      rw [List.find?_cons_of_pos _ (by simp [hmax])]
      simp only [Ded.sortDesc, insertDesc_head]
      rcases hhead : (Ded.sortDesc f t).head? with _ | b
      · rfl
      · have hbt : b ∈ t := (sortDesc_perm f t).mem_iff.mp (List.mem_of_mem_head? (by
          rw [hhead]; exact rfl))
        have : ¬ f a < f b := Nat.not_lt.mpr (le_trans (le_maxQ f hbt) hle)
        simp [this]
    · have hlt : f a < maxQ f t := Nat.lt_of_not_le hle
      have hmax : maxQ f (a :: t) = maxQ f t := by
        rw [maxQ_cons]; exact Nat.max_eq_right (Nat.le_of_lt hlt)
      have htne : t ≠ [] := by
        intro he; rw [he] at hlt; exact Nat.not_lt_zero _ hlt
      rw [List.find?_cons_of_neg _ (by simp [hmax]; omega)]
      obtain ⟨x, hx, hfx⟩ := maxQ_attained f htne
      have hsome : (t.find? (fun a => decide (f a = maxQ f t))).isSome := by
        rw [List.find?_isSome]; exact ⟨x, hx, by simp [hfx]⟩
      rcases hfind : t.find? (fun a => decide (f a = maxQ f t)) with _ | b
      · rw [hfind] at hsome; exact absurd hsome (by simp)
      · have hfb : f b = maxQ f t := by
          have := List.find?_some hfind; simpa using this
        simp only [Ded.sortDesc, insertDesc_head, ih, hfind]
        simp only [hmax]
        simp only [hfb ▸ hlt, if_true]
        exact hfind.symm

/-- C3: for every nonempty group, the head of the stable descending
sort by quality score — the record `select_best_from_groups` keeps —
is exactly the earliest-inserted record among those of maximal
quality score. -/
theorem claim_C3 (g : List Ded.Agent) (h : g ≠ []) :
    ∃ s, (Ded.sortDesc Ded.Agent.quality_score g).head? = some s ∧
      g.find? (fun a => decide (a.quality_score = maxQ Ded.Agent.quality_score g)) = some s ∧
      s ∈ g ∧ s.quality_score = maxQ Ded.Agent.quality_score g := by
  obtain ⟨x, hx, hfx⟩ := maxQ_attained Ded.Agent.quality_score h
  have hsome : (g.find? (fun a =>
      decide (a.quality_score = maxQ Ded.Agent.quality_score g))).isSome := by
    rw [List.find?_isSome]; exact ⟨x, hx, by simp [hfx]⟩
  rcases hfind : g.find? (fun a =>
      decide (a.quality_score = maxQ Ded.Agent.quality_score g)) with _ | s
  · rw [hfind] at hsome; exact absurd hsome (by simp)
  · refine ⟨s, ?_, hfind, List.mem_of_find?_eq_some hfind, ?_⟩
    · rw [sortDesc_head_find, hfind]
    · have := List.find?_some hfind; simpa using this

/-- A record with a given path, name and quality score. -/
def mkScored (p q : Nat) (nm : String) : Ded.Agent :=
  { mkAgent p nm "" with quality_score := q }

/-- C3 witness: on the group with scores [40, 55, 55] in insertion
order, the survivor is the first score-55 record. -/
theorem claim_C3_witness :
    ([mkScored 9 40 "a", mkScored 10 55 "b", mkScored 11 55 "c"] ≠
      ([] : List Ded.Agent)) ∧
    (Ded.sortDesc Ded.Agent.quality_score
      [mkScored 9 40 "a", mkScored 10 55 "b", mkScored 11 55 "c"]).head? =
      some (mkScored 10 55 "b") := by
  refine ⟨List.cons_ne_nil _ _, ?_⟩
  obtain ⟨s, h1, h2, _, _⟩ := claim_C3
    [mkScored 9 40 "a", mkScored 10 55 "b", mkScored 11 55 "c"] (List.cons_ne_nil _ _)
  have h3 : ([mkScored 9 40 "a", mkScored 10 55 "b", mkScored 11 55 "c"].find? fun a =>
      decide (a.quality_score = maxQ Ded.Agent.quality_score
        [mkScored 9 40 "a", mkScored 10 55 "b", mkScored 11 55 "c"])) =
      some (mkScored 10 55 "b") := rfl
  rw [h1, Option.some.inj (h2.symm.trans h3)]

/-! ## C4 — the classifier keeps the first strictly-best taxonomy pair -/

theorem fold_bestStep_snd (a : Col.AgentC) :
    ∀ (L : List ((Str × Str) × List Str)) (st : (Str × Str) × Nat),
      (L.foldl (Col.bestStep a) st).2 = max st.2 (maxQ (fun p => Col.subScore a p.2) L) := by
  intro L
  induction L with
  | nil => intro st; simp [maxQ]
  | cons p t ih =>
    intro st
    rw [List.foldl_cons, ih, maxQ_cons]
    have hstep : (Col.bestStep a st p).2 = max st.2 (Col.subScore a p.2) := by
      unfold Col.bestStep
      split
      · next h => exact (Nat.max_eq_right (Nat.le_of_lt h)).symm
      · next h => exact (Nat.max_eq_left (Nat.le_of_not_lt h)).symm
    rw [hstep, Nat.max_assoc]

theorem fold_bestStep_stay (a : Col.AgentC) :
    ∀ (L : List ((Str × Str) × List Str)) (st : (Str × Str) × Nat),
      (∀ p ∈ L, Col.subScore a p.2 ≤ st.2) → L.foldl (Col.bestStep a) st = st := by
  intro L
  induction L with
  | nil => intro st _; rfl
  | cons p t ih =>
    intro st h
    rw [List.foldl_cons]
    have hp : Col.bestStep a st p = st := by
      unfold Col.bestStep
      rw [if_neg (Nat.not_lt.mpr (h p (List.mem_cons_self p t)))]
    rw [hp]
    exact ih st fun q hq => h q (List.mem_cons_of_mem p hq)

theorem fold_bestStep_argmax (a : Col.AgentC) :
    ∀ (L : List ((Str × Str) × List Str)) (st : (Str × Str) × Nat),
      st.2 < maxQ (fun p => Col.subScore a p.2) L →
      ∃ (i : Nat) (p : (Str × Str) × List Str), L[i]? = some p ∧
        Col.subScore a p.2 = maxQ (fun p => Col.subScore a p.2) L ∧
        L.foldl (Col.bestStep a) st = (p.1, Col.subScore a p.2) ∧
        ∀ (j : Nat) (q : (Str × Str) × List Str), j < i → L[j]? = some q →
          Col.subScore a q.2 < maxQ (fun p => Col.subScore a p.2) L := by
  intro L
  induction L with
  | nil => intro st h; exact absurd h (by simp [maxQ])
  | cons p t ih =>
    intro st h
    by_cases hc : maxQ (fun p => Col.subScore a p.2) t ≤ Col.subScore a p.2
    · have hM : maxQ (fun p => Col.subScore a p.2) (p :: t) = Col.subScore a p.2 := by
        rw [maxQ_cons]; exact Nat.max_eq_left hc
      have hlt : st.2 < Col.subScore a p.2 := hM ▸ h
      have hstep : Col.bestStep a st p = (p.1, Col.subScore a p.2) := by
        unfold Col.bestStep; rw [if_pos hlt]
      refine ⟨0, p, by simp, hM.symm, ?_, fun j q hj _ => absurd hj (Nat.not_lt_zero j)⟩
      rw [List.foldl_cons, hstep]
      exact fold_bestStep_stay a t (p.1, Col.subScore a p.2) fun q hq =>
        le_trans (le_maxQ (fun p => Col.subScore a p.2) hq) hc
    · have hsc : Col.subScore a p.2 < maxQ (fun p => Col.subScore a p.2) t :=
        Nat.lt_of_not_le hc
      have hM : maxQ (fun p => Col.subScore a p.2) (p :: t) =
          maxQ (fun p => Col.subScore a p.2) t := by
        rw [maxQ_cons]; exact Nat.max_eq_right (Nat.le_of_lt hsc)
      have hst : (Col.bestStep a st p).2 < maxQ (fun p => Col.subScore a p.2) t := by
        unfold Col.bestStep
        split
        · exact hsc
        · exact hM ▸ h
      obtain ⟨i, q, hi, hq, hres, hall⟩ := ih (Col.bestStep a st p) hst
      refine ⟨i + 1, q, by simpa using hi, hM ▸ hq, by rw [List.foldl_cons]; exact hres, ?_⟩
      intro j r hj hr
      rcases j with _ | j
      · have : r = p := by simpa using hr.symm
        rw [this, hM]
        exact hsc
      · rw [hM]
        exact hall j r (Nat.lt_of_succ_lt_succ hj) (by simpa using hr)

/-- C4: the classifier returns the taxonomy pair with the strictly
highest accumulated weighted keyword score; when every pair scores 0
it returns the fixed default ("specialized", "general"); and the
winning pair is the first one in declaration order attaining the
maximum, so every earlier pair scores strictly less (deterministic,
order-stable tie-breaking). -/
theorem claim_C4 (a : Col.AgentC) :
    (maxQ (fun p => Col.subScore a p.2) Col.pairsList = 0 →
      Col.categorize_agent a = ("specialized".toList, "general".toList)) ∧
    (0 < maxQ (fun p => Col.subScore a p.2) Col.pairsList →
      ∃ (i : Nat) (p : (Str × Str) × List Str), Col.pairsList[i]? = some p ∧
        Col.categorize_agent a = p.1 ∧
        Col.subScore a p.2 = maxQ (fun p => Col.subScore a p.2) Col.pairsList ∧
        ∀ (j : Nat) (q : (Str × Str) × List Str), j < i → Col.pairsList[j]? = some q →
          Col.subScore a q.2 < maxQ (fun p => Col.subScore a p.2) Col.pairsList) := by
  constructor
  · intro h0
    unfold Col.categorize_agent
    have hstay : Col.pairsList.foldl (Col.bestStep a)
        (("specialized".toList, "general".toList), 0) =
        (("specialized".toList, "general".toList), 0) :=
      fold_bestStep_stay a Col.pairsList _ fun p hp => by
        have hle := le_maxQ (fun p => Col.subScore a p.2) hp
        rw [h0] at hle
        simpa using hle
    rw [hstay]
  · intro h0
    obtain ⟨i, p, hi, hp, hres, hall⟩ :=
      fold_bestStep_argmax a Col.pairsList (("specialized".toList, "general".toList), 0) h0
    exact ⟨i, p, hi, by unfold Col.categorize_agent; rw [hres], hp, hall⟩

/-- A concrete record named "rust-cargo" (languages/rust keywords). -/
def exRust : Col.AgentC :=
  { original_path := [], source_repo := [], name := "rust-cargo".toList
    description := [], content := [], content_hash := [], yaml_frontmatter := .dict []
    tools := .arr [], category := [], subcategory := [], agent_id := 0, quality_score := 0 }

/-- C4 witness: "rust-cargo" has a positive maximal score, so the
classifier returns the first pair attaining the maximum. -/
theorem claim_C4_witness :
    0 < maxQ (fun p => Col.subScore exRust p.2) Col.pairsList ∧
    ∃ (i : Nat) (p : (Str × Str) × List Str), Col.pairsList[i]? = some p ∧
      Col.categorize_agent exRust = p.1 ∧
      Col.subScore exRust p.2 = maxQ (fun p => Col.subScore exRust p.2) Col.pairsList ∧
      ∀ (j : Nat) (q : (Str × Str) × List Str), j < i → Col.pairsList[j]? = some q →
        Col.subScore exRust q.2 < maxQ (fun p => Col.subScore exRust p.2) Col.pairsList :=
  ⟨by decide, (claim_C4 exRust).2 (by decide)⟩

/-! ## C8 — description-length monotonicity holds only in intelligent_dedupe -/

/-- Looking up the key of the distinguished middle entry returns its
value when no earlier entry carries that key. -/
theorem yGet_middle (k : Str) (dflt x : YVal) :
    ∀ ys1 : List (Str × YVal), (∀ kv ∈ ys1, kv.1 ≠ k) → ∀ ys2,
      yGet k dflt (YVal.dict (ys1 ++ (k, x) :: ys2)) = x := by
  intro ys1
  induction ys1 with
  | nil =>
    intro _ ys2
    simp [yGet, List.find?_cons]
  | cons kv t ih =>
    intro h ys2
    have hne : ¬ (kv.1 = k) := h kv (List.mem_cons_self kv t)
    have := ih (fun q hq => h q (List.mem_cons_of_mem kv hq)) ys2
    simpa [yGet, List.find?_cons, hne] using this

/-- Looking up a key different from the middle entry's key ignores the
middle entry's value. -/
theorem yGet_middle_ne (k K : Str) (hKk : ¬ (K = k)) (dflt v w : YVal) :
    ∀ ys1 ys2 : List (Str × YVal),
      yGet k dflt (YVal.dict (ys1 ++ (K, v) :: ys2)) =
      yGet k dflt (YVal.dict (ys1 ++ (K, w) :: ys2)) := by
  intro ys1 ys2
  induction ys1 with
  | nil => simp [yGet, List.find?_cons, hKk]
  | cons kv t ih =>
    by_cases hkv : kv.1 = k
    · simp [yGet, List.find?_cons, hkv]
    · simpa [yGet, List.find?_cons, hkv] using ih

/-- Key membership ignores the middle entry's value. -/
theorem yContains_middle (k K : Str) (v w : YVal) (ys1 ys2 : List (Str × YVal)) :
    yContains k (YVal.dict (ys1 ++ (K, v) :: ys2)) =
    yContains k (YVal.dict (ys1 ++ (K, w) :: ys2)) := by
  simp [yContains, List.any_append]

/-- The middle entry's key is a member. -/
theorem yContains_middle_self (k : Str) (v : YVal) (ys1 ys2 : List (Str × YVal)) :
    yContains k (YVal.dict (ys1 ++ (k, v) :: ys2)) = true := by
  simp [yContains, List.any_append]

/-- C8 amended: with a present header (`has_yaml`) and no earlier
`description` entry, the intelligent_dedupe scorer gives the record
whose description exceeds 100 characters a strictly higher score (+5
versus +0) than the record whose description is under 50 characters,
all other fields equal; the collect_agents scorer awards only a flat
description-presence bonus, so two records differing only in their
description (field and header value) always receive equal scores. -/
theorem claim_C8_amended :
    (∀ (a : Ded.Agent) (ys1 ys2 : List (Str × YVal)) (d1 d2 : Str),
      a.has_yaml = true →
      (∀ kv ∈ ys1, kv.1 ≠ "description".toList) →
      100 < d1.length → d2.length < 50 →
      (Ded.calculate_quality_score
        { a with yaml_data := .dict (ys1 ++ ("description".toList, YVal.s d2) :: ys2) }).1 <
      (Ded.calculate_quality_score
        { a with yaml_data := .dict (ys1 ++ ("description".toList, YVal.s d1) :: ys2) }).1) ∧
    (∀ (a : Col.AgentC) (ys1 ys2 : List (Str × YVal)) (d1 d2 : Str),
      Col.calculate_quality_score
        { a with description := d1,
                 yaml_frontmatter := .dict (ys1 ++ ("description".toList, YVal.s d1) :: ys2) } =
      Col.calculate_quality_score
        { a with description := d2,
                 yaml_frontmatter := .dict (ys1 ++ ("description".toList, YVal.s d2) :: ys2) }) := by
  constructor
  · intro a ys1 ys2 d1 d2 hy hk h1 h2
    have hget1 := yGet_middle "description".toList (YVal.s []) (YVal.s d1) ys1 hk ys2
    have hget2 := yGet_middle "description".toList (YVal.s []) (YVal.s d2) ys1 hk ys2
    have hgetT := yGet_middle_ne "tools".toList "description".toList (by decide)
      (YVal.arr []) (YVal.s d1) (YVal.s d2) ys1 ys2
    have hconN := yContains_middle "name".toList "description".toList
      (YVal.s d1) (YVal.s d2) ys1 ys2
    have hconT := yContains_middle "tools".toList "description".toList
      (YVal.s d1) (YVal.s d2) ys1 ys2
    have hconD := yContains_middle_self "description".toList (YVal.s d1) ys1 ys2
    have hconD2 := yContains_middle_self "description".toList (YVal.s d2) ys1 ys2
    have hex1 : Ded.examplesCond
        { a with yaml_data := .dict (ys1 ++ ("description".toList, YVal.s d1) :: ys2) } =
        Ded.examplesCond a := rfl
    have hex2 : Ded.examplesCond
        { a with yaml_data := .dict (ys1 ++ ("description".toList, YVal.s d2) :: ys2) } =
        Ded.examplesCond a := rfl
    dsimp only [Ded.calculate_quality_score]
    simp only [hex1, hex2]
    rw [hy]
    simp only [if_true, hget1, hget2, hgetT, hconN, hconT, hconD, hconD2, yLen]
    rw [if_pos h1, if_neg (by omega : ¬ 100 < d2.length), if_neg (by omega : ¬ 50 < d2.length)]
    omega
  · intro a ys1 ys2 d1 d2
    dsimp only [Col.calculate_quality_score]
    rw [yContains_middle "name".toList "description".toList
        (YVal.s d1) (YVal.s d2) ys1 ys2,
      yContains_middle "tools".toList "description".toList
        (YVal.s d1) (YVal.s d2) ys1 ys2,
      yContains_middle "description".toList "description".toList
        (YVal.s d1) (YVal.s d2) ys1 ys2,
      show yTruthy (YVal.dict (ys1 ++ ("description".toList, YVal.s d1) :: ys2)) =
        yTruthy (YVal.dict (ys1 ++ ("description".toList, YVal.s d2) :: ys2)) by
          cases ys1 <;> rfl]

/-- A collect_agents record with a long description (101 characters). -/
def exDescL : Col.AgentC :=
  { original_path := []
    source_repo := []
    name := "n".toList
    description := List.replicate 101 'a'
    content := []
    content_hash := []
    yaml_frontmatter := .dict [("name".toList, YVal.s "n".toList),
      ("description".toList, YVal.s (List.replicate 101 'a'))]
    tools := .arr []
    category := []
    subcategory := []
    agent_id := 0
    quality_score := 0 }

/-- The same record with a short description (10 characters). -/
def exDescS : Col.AgentC :=
  { exDescL with
    description := List.replicate 10 'a'
    yaml_frontmatter := .dict [("name".toList, YVal.s "n".toList),
      ("description".toList, YVal.s (List.replicate 10 'a'))] }

/-- C8 counterexample: in collect_agents.py the scorer has no
description-length bonus, so two records identical except for a
101-character versus 10-character description receive equal scores —
the longer-description record does not score strictly higher. -/
theorem claim_C8_counterexample :
    100 < exDescL.description.length ∧ exDescS.description.length < 50 ∧
    Col.calculate_quality_score exDescL = Col.calculate_quality_score exDescS ∧
    ¬ Col.calculate_quality_score exDescS < Col.calculate_quality_score exDescL := by
  refine ⟨by decide, by decide, by decide, by decide⟩

/-- A dedupe record with the header flag set. -/
def exYBase : Ded.Agent := { mkAgent 12 "m" "" with has_yaml := true }

/-- C8 amended witness: for the intelligent_dedupe scorer, a record
with a 101-character description strictly outscores the identical
record with a 10-character description. -/
theorem claim_C8_witness :
    exYBase.has_yaml = true ∧
    (Ded.calculate_quality_score
      { exYBase with yaml_data := .dict ([("name".toList, YVal.s "n".toList)] ++
        ("description".toList, YVal.s (List.replicate 10 'a')) :: []) }).1 <
    (Ded.calculate_quality_score
      { exYBase with yaml_data := .dict ([("name".toList, YVal.s "n".toList)] ++
        ("description".toList, YVal.s (List.replicate 101 'a')) :: []) }).1 :=
  ⟨rfl, claim_C8_amended.1 exYBase [("name".toList, YVal.s "n".toList)] []
    (List.replicate 101 'a') (List.replicate 10 'a') rfl
    (by decide) (by decide) (by decide)⟩

/-! ## C2 — grouping tests candidates against group seeds only -/

theorem findGroupsF_mem_sub :
    ∀ (fuel : Nat) (l : List Ded.Agent), ∀ g ∈ Ded.findGroupsF fuel l, ∀ b ∈ g, b ∈ l := by
  intro fuel
  induction fuel with
  | zero => intro l g hg; simp [Ded.findGroupsF] at hg
  | succ n ih =>
    intro l g hg b hb
    cases l with
    | nil => simp [Ded.findGroupsF] at hg
    | cons a rest =>
      simp only [Ded.findGroupsF] at hg
      rcases List.mem_cons.mp hg with rfl | hg
      · rcases List.mem_cons.mp hb with rfl | hb
        · exact List.mem_cons_self _ _
        · exact List.mem_cons_of_mem _ (List.mem_of_mem_filter hb)
      · exact List.mem_cons_of_mem _ (List.mem_of_mem_filter (ih _ g hg b hb))

theorem findGroupsF_tail_match :
    ∀ (fuel : Nat) (l : List Ded.Agent), ∀ g ∈ Ded.findGroupsF fuel l, ∀ s,
      g.head? = some s → ∀ b ∈ g.tail, Ded.is_duplicate s b = true := by
  intro fuel
  induction fuel with
  | zero => intro l g hg; simp [Ded.findGroupsF] at hg
  | succ n ih =>
    intro l g hg s hs b hb
    cases l with
    | nil => simp [Ded.findGroupsF] at hg
    | cons a rest =>
      simp only [Ded.findGroupsF] at hg
      rcases List.mem_cons.mp hg with rfl | hg
      · have hsa : s = a := by simpa using hs.symm
        subst hsa
        exact List.of_mem_filter (by simpa using hb)
      · exact ih _ g hg s hs b hb

theorem findGroupsF_cross :
    ∀ (fuel : Nat) (l : List Ded.Agent) (i j : Nat) (gi gj : List Ded.Agent)
      (si : Ded.Agent), i < j →
      (Ded.findGroupsF fuel l)[i]? = some gi → (Ded.findGroupsF fuel l)[j]? = some gj →
      gi.head? = some si → ∀ b ∈ gj, Ded.is_duplicate si b = false := by
  intro fuel
  induction fuel with
  | zero => intro l i j gi gj si hij hi hj hsi b hb; simp [Ded.findGroupsF] at hi
  | succ n ih =>
    intro l i j gi gj si hij hi hj hsi b hb
    cases l with
    | nil => simp [Ded.findGroupsF] at hi
    | cons a rest =>
      simp only [Ded.findGroupsF] at hi hj
      rcases i with _ | i
      · have hgi : a :: rest.filter (fun b => Ded.is_duplicate a b) = gi := by simpa using hi
        have hsa : si = a := by rw [← hgi] at hsi; simpa using hsi.symm
        rcases j with _ | j
        · exact absurd hij (Nat.lt_irrefl 0)
        · have hj2 : (Ded.findGroupsF n
              (rest.filter fun b => !Ded.is_duplicate a b))[j]? = some gj := by
            simpa using hj
          have hbmem : b ∈ rest.filter fun b => !Ded.is_duplicate a b :=
            findGroupsF_mem_sub n _ gj (List.getElem?_mem hj2) b hb
          have hbf : (!Ded.is_duplicate a b) = true := (List.mem_filter.mp hbmem).2
          rw [hsa]
          simpa using hbf
      · rcases j with _ | j
        · exact absurd hij (by omega)
        · exact ih _ i j gi gj si (Nat.lt_of_succ_lt_succ hij)
            (by simpa using hi) (by simpa using hj) hsi b hb

/-- Separation of a group from a later group: no member of the later
group matches the earlier group's seed. -/
def SeedSep (g g2 : List Col.AgentC) : Prop :=
  ∀ s, g.head? = some s → ∀ b ∈ g2, ¬ (4 : ℚ) / 5 < Col.similarity_score b s

/-- Invariant of the collect_agents grouping loop: groups are
nonempty, every non-seed member matched its own seed when it joined,
and no member of a later group matches an earlier seed. -/
def GoodGroups (gs : List (List Col.AgentC)) : Prop :=
  gs.Pairwise SeedSep ∧
  ∀ g ∈ gs, g ≠ [] ∧ ∀ s, g.head? = some s → ∀ b ∈ g.tail,
    (4 : ℚ) / 5 < Col.similarity_score b s

theorem addToGroups_members :
    ∀ (gs : List (List Col.AgentC)) (a : Col.AgentC) (g : List Col.AgentC)
      (b : Col.AgentC), g ∈ Col.addToGroups gs a → b ∈ g →
      (∃ g0 ∈ gs, b ∈ g0) ∨ b = a := by
  intro gs
  induction gs with
  | nil =>
    intro a g b hg hb
    simp only [Col.addToGroups] at hg
    rcases List.mem_singleton.mp hg with rfl
    exact Or.inr (List.mem_singleton.mp hb)
  | cons g0 rest ih =>
    intro a g b hg hb
    simp only [Col.addToGroups] at hg
    by_cases hm : Col.matchesSeed a g0 = true
    · rw [if_pos hm] at hg
      rcases List.mem_cons.mp hg with rfl | hg
      · rcases List.mem_append.mp hb with hb | hb
        · exact Or.inl ⟨g0, List.mem_cons_self _ _, hb⟩
        · exact Or.inr (List.mem_singleton.mp hb)
      · exact Or.inl ⟨g, List.mem_cons_of_mem _ hg, hb⟩
    · rw [if_neg hm] at hg
      rcases List.mem_cons.mp hg with rfl | hg
      · exact Or.inl ⟨g, List.mem_cons_self _ _, hb⟩
      · rcases ih a g b hg hb with ⟨g2, hg2, hbg2⟩ | rfl
        · exact Or.inl ⟨g2, List.mem_cons_of_mem _ hg2, hbg2⟩
        · exact Or.inr rfl

theorem addToGroups_good :
    ∀ (gs : List (List Col.AgentC)) (a : Col.AgentC),
      GoodGroups gs → GoodGroups (Col.addToGroups gs a) := by
  intro gs
  induction gs with
  | nil =>
    intro a _
    constructor
    · simp only [Col.addToGroups]
      exact List.pairwise_singleton _ _
    · intro g hg
      simp only [Col.addToGroups] at hg
      rcases List.mem_singleton.mp hg with rfl
      exact ⟨List.cons_ne_nil _ _, fun s hs b hb => absurd hb (by simp)⟩
  | cons g0 rest ih =>
    intro a hgood
    obtain ⟨hpw, hall⟩ := hgood
    rw [List.pairwise_cons] at hpw
    obtain ⟨hsep0, hpwrest⟩ := hpw
    obtain ⟨hne0, htail0⟩ := hall g0 (List.mem_cons_self _ _)
    obtain ⟨c, t, rfl⟩ : ∃ c t, g0 = c :: t := by
      cases g0 with
      | nil => exact absurd rfl hne0
      | cons c t => exact ⟨c, t, rfl⟩
    simp only [Col.addToGroups]
    by_cases hm : Col.matchesSeed a (c :: t) = true
    · rw [if_pos hm]
      have hsim : (4 : ℚ) / 5 < Col.similarity_score a c := by
        have := hm
        simp only [Col.matchesSeed] at this
        exact of_decide_eq_true this
      constructor
      · rw [List.pairwise_cons]
        refine ⟨?_, hpwrest⟩
        intro g2 hg2 s hs b hb
        have hsc : s = c := by simpa using hs.symm
        exact hsep0 g2 hg2 s (by simp [hsc]) b hb
      · intro g hg
        rcases List.mem_cons.mp hg with rfl | hg
        · refine ⟨by simp, ?_⟩
          intro s hs b hb
          have hsc : s = c := by simpa using hs.symm
          subst hsc
          have hb2 : b ∈ t ++ [a] := by simpa using hb
          rcases List.mem_append.mp hb2 with hb2 | hb2
          · exact htail0 s rfl b hb2
          · rcases List.mem_singleton.mp hb2 with rfl
            exact hsim
        · exact hall g (List.mem_cons_of_mem _ hg)
    · rw [if_neg hm]
      have hnsim : ¬ (4 : ℚ) / 5 < Col.similarity_score a c := by
        intro hcon
        exact hm (by simp only [Col.matchesSeed]; exact decide_eq_true hcon)
      have ihgood := ih a ⟨hpwrest, fun g hg => hall g (List.mem_cons_of_mem _ hg)⟩
      constructor
      · rw [List.pairwise_cons]
        refine ⟨?_, ihgood.1⟩
        intro g2 hg2 s hs b hb
        have hsc : s = c := by simpa using hs.symm
        subst hsc
        rcases addToGroups_members rest a g2 b hg2 hb with ⟨g3, hg3, hbg3⟩ | rfl
        · exact hsep0 g3 hg3 s rfl b hbg3
        · exact hnsim
      · intro g hg
        rcases List.mem_cons.mp hg with rfl | hg
        · exact ⟨List.cons_ne_nil _ _, fun s hs b hb => by
            have hsc : s = c := by simpa using hs.symm
            subst hsc
            exact htail0 s rfl b hb⟩
        · exact ihgood.2 g hg

theorem buildGroups_good_aux :
    ∀ (l : List Col.AgentC) (gs : List (List Col.AgentC)),
      GoodGroups gs → GoodGroups (l.foldl Col.addToGroups gs) := by
  intro l
  induction l with
  | nil => intro gs h; exact h
  | cons a t ih =>
    intro gs h
    rw [List.foldl_cons]
    exact ih _ (addToGroups_good gs a h)

theorem buildGroups_good (l : List Col.AgentC) : GoodGroups (Col.buildGroups l) :=
  buildGroups_good_aux l [] ⟨List.Pairwise.nil, fun _ hg => absurd hg (by simp)⟩

/-- C2: in both grouping implementations, candidates are compared
against the group seed (its first record) only.  For
intelligent_dedupe's grouper: every non-seed member of a group is a
duplicate of that group's seed, and no member of a later group is a
duplicate of any earlier group's seed (so membership is fully
determined by seed comparisons in input order — first matching seed
wins, with no transitive closure over non-seed members).  The same two
statements hold for collect_agents' grouper with its weighted 0.8
similarity threshold. -/
theorem claim_C2 :
    (∀ (l : List Ded.Agent), ∀ g ∈ Ded.findGroups l, ∀ s, g.head? = some s →
      ∀ b ∈ g.tail, Ded.is_duplicate s b = true) ∧
    (∀ (l : List Ded.Agent) (i j : Nat) (gi gj : List Ded.Agent) (si : Ded.Agent),
      i < j → (Ded.findGroups l)[i]? = some gi → (Ded.findGroups l)[j]? = some gj →
      gi.head? = some si → ∀ b ∈ gj, Ded.is_duplicate si b = false) ∧
    (∀ (l : List Col.AgentC), ∀ g ∈ Col.buildGroups l, ∀ s, g.head? = some s →
      ∀ b ∈ g.tail, (4 : ℚ) / 5 < Col.similarity_score b s) ∧
    (∀ (l : List Col.AgentC) (i j : Nat) (gi gj : List Col.AgentC) (si : Col.AgentC),
      i < j → (Col.buildGroups l)[i]? = some gi → (Col.buildGroups l)[j]? = some gj →
      gi.head? = some si → ∀ b ∈ gj, ¬ (4 : ℚ) / 5 < Col.similarity_score b si) := by
  refine ⟨?_, ?_, ?_, ?_⟩
  · intro l
    exact findGroupsF_tail_match l.length l
  · intro l
    exact findGroupsF_cross l.length l
  · intro l g hg s hs b hb
    exact ((buildGroups_good l).2 g hg).2 s hs b hb
  · intro l i j gi gj si hij hi hj hsi b hb
    have hpw := (buildGroups_good l).1
    rw [List.pairwise_iff_getElem] at hpw
    obtain ⟨hilt, hig⟩ := List.getElem?_eq_some_iff.mp hi
    obtain ⟨hjlt, hjg⟩ := List.getElem?_eq_some_iff.mp hj
    have := hpw i j hilt hjlt hij
    rw [hig, hjg] at this
    exact this si hsi b hb

/-- Two collect_agents records with identical name, description and
content (similarity 1). -/
def exCol1 : Col.AgentC := { exRust with name := "alpha".toList, content := "same text".toList }

/-- See `exCol1`. -/
def exCol2 : Col.AgentC :=
  { exRust with name := "alpha".toList, content := "same text".toList, agent_id := 1 }

/-- A collect_agents record unrelated to `exCol1`. -/
def exColX : Col.AgentC := { exRust with name := "zzzz".toList, content := "@@@@@@".toList }

/-- C2 witness: concrete instantiations of all four parts.  For
intelligent_dedupe, on [python-pro, python-expert, xxxxtide] the first
group is seeded by python-pro with python-expert as a matching member,
and the later group's member xxxxtide does not match the first seed.
For collect_agents, two identical records form one group whose member
matched the seed, and an unrelated third record lands in a later group
without matching the first seed. -/
theorem claim_C2_witness :
    Ded.is_duplicate exPython (mkAgent 5 "python-expert" "eeee") = true ∧
    Ded.is_duplicate exPython exTide = false ∧
    (4 : ℚ) / 5 < Col.similarity_score exCol2 exCol1 ∧
    ¬ (4 : ℚ) / 5 < Col.similarity_score exColX exCol1 := by
  have hfg : Ded.findGroups exList =
      [[exPython, mkAgent 5 "python-expert" "eeee"], [exTide]] := by
    with_unfolding_all rfl
  have hbg : Col.buildGroups [exCol1, exCol2, exColX] = [[exCol1, exCol2], [exColX]] := by
    with_unfolding_all rfl
  refine ⟨?_, ?_, ?_, ?_⟩
  · exact claim_C2.1 exList [exPython, mkAgent 5 "python-expert" "eeee"]
      (hfg ▸ List.mem_cons_self _ _) exPython rfl (mkAgent 5 "python-expert" "eeee")
      (List.mem_singleton_self _)
  · exact claim_C2.2.1 exList 0 1 [exPython, mkAgent 5 "python-expert" "eeee"] [exTide]
      exPython Nat.zero_lt_one (by rw [hfg]; rfl) (by rw [hfg]; rfl) rfl exTide
      (List.mem_singleton_self _)
  · exact claim_C2.2.2.1 [exCol1, exCol2, exColX] [exCol1, exCol2]
      (hbg ▸ List.mem_cons_self _ _) exCol1 rfl exCol2 (List.mem_singleton_self _)
  · exact claim_C2.2.2.2 [exCol1, exCol2, exColX] 0 1 [exCol1, exCol2] [exColX] exCol1
      Nat.zero_lt_one (by rw [hbg]; rfl) (by rw [hbg]; rfl) rfl exColX
      (List.mem_singleton_self _)

/-! ## C1 — grouping and selection partition the records -/

theorem findGroupsF_ne_nil :
    ∀ (fuel : Nat) (l : List Ded.Agent), ∀ g ∈ Ded.findGroupsF fuel l, g ≠ [] := by
  intro fuel
  induction fuel with
  | zero => intro l g hg; simp [Ded.findGroupsF] at hg
  | succ n ih =>
    intro l g hg
    cases l with
    | nil => simp [Ded.findGroupsF] at hg
    | cons a rest =>
      simp only [Ded.findGroupsF] at hg
      rcases List.mem_cons.mp hg with rfl | hg
      · exact List.cons_ne_nil _ _
      · exact ih _ g hg

theorem findGroupsF_join_perm :
    ∀ (fuel : Nat) (l : List Ded.Agent), l.length ≤ fuel →
      (Ded.findGroupsF fuel l).flatten.Perm l := by
  intro fuel
  induction fuel with
  | zero =>
    intro l hl
    have hnil : l = [] := List.length_eq_zero.mp (Nat.le_zero.mp hl)
    subst hnil
    exact List.Perm.refl _
  | succ n ih =>
    intro l hl
    cases l with
    | nil => exact List.Perm.refl _
    | cons a rest =>
      simp only [Ded.findGroupsF, List.flatten_cons, List.cons_append]
      refine List.Perm.cons a ?_
      have hn : (rest.filter fun b => !Ded.is_duplicate a b).length ≤ n :=
        le_trans (List.length_filter_le _ _) (by simpa using hl)
      exact (List.Perm.append_left _ (ih _ hn)).trans (List.filter_append_perm _ rest)

/-- The concatenation of all groups is a permutation of the input. -/
theorem findGroups_join_perm (agents : List Ded.Agent) :
    (Ded.findGroups agents).flatten.Perm agents :=
  findGroupsF_join_perm agents.length agents (le_refl _)

theorem pcount_nodup {l : List Ded.Agent} (h : (l.map Ded.Agent.path).Nodup)
    {a : Ded.Agent} (ha : a ∈ l) :
    l.countP (fun x => decide (x.path = a.path)) = 1 := by
  induction l with
  | nil => cases ha
  | cons b t ih =>
    rw [List.map_cons, List.nodup_cons] at h
    rw [List.countP_cons]
    rcases List.mem_cons.mp ha with rfl | ha
    · have hz : t.countP (fun x => decide (x.path = a.path)) = 0 :=
        List.countP_eq_zero.mpr fun x hx hpx =>
          h.1 ((of_decide_eq_true hpx) ▸ List.mem_map_of_mem Ded.Agent.path hx)
      simp [hz]
    · have hbne : (decide (b.path = a.path)) = false := by
        simp only [decide_eq_false_iff_not]
        intro he
        exact h.1 (he ▸ List.mem_map_of_mem Ded.Agent.path ha)
      simp [hbne, ih h.2 ha]

theorem countP_any_zero (p : Nat) :
    ∀ L : List (List Ded.Agent),
      (L.map (fun g => g.countP fun x => decide (x.path = p))).sum = 0 →
      L.countP (fun g => g.any fun x => decide (x.path = p)) = 0 := by
  intro L
  induction L with
  | nil => intro _; rfl
  | cons g t ih =>
    intro h
    rw [List.map_cons, List.sum_cons] at h
    have hg : g.countP (fun x => decide (x.path = p)) = 0 := by omega
    have hany : (g.any fun x => decide (x.path = p)) = false :=
      List.any_eq_false.mpr (List.countP_eq_zero.mp hg)
    rw [List.countP_cons]
    simp [hany, ih (by omega : (t.map
      (fun g => g.countP fun x => decide (x.path = p))).sum = 0)]

theorem countP_any_one (p : Nat) :
    ∀ L : List (List Ded.Agent),
      (L.map (fun g => g.countP fun x => decide (x.path = p))).sum = 1 →
      L.countP (fun g => g.any fun x => decide (x.path = p)) = 1 := by
  intro L
  induction L with
  | nil => intro h; simp at h
  | cons g t ih =>
    intro h
    rw [List.map_cons, List.sum_cons] at h
    rcases Nat.eq_zero_or_pos (g.countP fun x => decide (x.path = p)) with hg | hg
    · have hany : (g.any fun x => decide (x.path = p)) = false :=
        List.any_eq_false.mpr (List.countP_eq_zero.mp hg)
      rw [List.countP_cons]
      simp [hany, ih (by omega : (t.map
        (fun g => g.countP fun x => decide (x.path = p))).sum = 1)]
    · have hs : (t.map (fun g => g.countP fun x => decide (x.path = p))).sum = 0 := by omega
      have hany : (g.any fun x => decide (x.path = p)) = true := by
        obtain ⟨x, hx, hpx⟩ := List.countP_pos_iff.mp hg
        exact List.any_eq_true.mpr ⟨x, hx, hpx⟩
      rw [List.countP_cons]
      simp [hany, countP_any_zero p t hs]

/-- Part A of C1: with pairwise distinct paths, every input record
lies in exactly one group of the full grouping (singletons included). -/
theorem groups_cover {agents : List Ded.Agent} (h : (agents.map Ded.Agent.path).Nodup)
    {a : Ded.Agent} (ha : a ∈ agents) :
    (Ded.findGroups agents).countP
      (fun g => g.any fun x => decide (x.path = a.path)) = 1 := by
  have hperm := findGroups_join_perm agents
  have h1 : (Ded.findGroups agents).flatten.countP
      (fun x => decide (x.path = a.path)) = 1 := by
    rw [hperm.countP_eq]
    exact pcount_nodup h ha
  rw [List.countP_flatten] at h1
  exact countP_any_one a.path (Ded.findGroups agents) h1

/-- Part B of C1: group sizes sum to the number of input records. -/
theorem groups_sizes (agents : List Ded.Agent) :
    ((Ded.findGroups agents).map List.length).sum = agents.length := by
  have hperm := findGroups_join_perm agents
  rw [← List.length_flatten]
  exact hperm.length_eq

theorem sublist_flatten {S L : List (List Ded.Agent)} (h : S.Sublist L) :
    S.flatten.Sublist L.flatten := by
  induction h with
  | slnil => exact List.Sublist.refl _
  | cons g h2 ih =>
    simp only [List.flatten_cons]
    exact ih.trans (List.sublist_append_right g _)
  | cons₂ g h2 ih =>
    simp only [List.flatten_cons]
    exact ih.append_left g

theorem multis_flatten_nodup {agents : List Ded.Agent}
    (h : (agents.map Ded.Agent.path).Nodup) :
    ((Ded.find_duplicates agents).flatten.map Ded.Agent.path).Nodup := by
  have hsub : (Ded.find_duplicates agents).flatten.Sublist (Ded.findGroups agents).flatten :=
    sublist_flatten (List.filter_sublist _)
  have hperm := findGroups_join_perm agents
  have hn : ((Ded.findGroups agents).flatten.map Ded.Agent.path).Nodup :=
    ((hperm.map Ded.Agent.path).nodup_iff).mpr h
  exact List.Nodup.sublist (hsub.map Ded.Agent.path) hn

/-- Path-disjointness of two groups. -/
def PDisj (g g2 : List Ded.Agent) : Prop := ∀ x ∈ g, ∀ y ∈ g2, x.path ≠ y.path

theorem pairwise_disj_of_nodup :
    ∀ L : List (List Ded.Agent),
      (L.flatten.map Ded.Agent.path).Nodup → L.Pairwise PDisj := by
  intro L
  induction L with
  | nil => intro _; exact List.Pairwise.nil
  | cons g t ih =>
    intro h
    rw [List.flatten_cons, List.map_append, List.nodup_append] at h
    obtain ⟨h1, h2, hdisj⟩ := h
    rw [List.pairwise_cons]
    refine ⟨?_, ih h2⟩
    intro g2 hg2 x hx y hy he
    exact hdisj (List.mem_map_of_mem Ded.Agent.path hx)
      (he ▸ List.mem_map_of_mem Ded.Agent.path (List.mem_flatten.mpr ⟨g2, hg2, hy⟩))

theorem bests_one :
    ∀ L : List (List Ded.Agent), L.Pairwise PDisj → (∀ g ∈ L, g ≠ []) →
      ∀ g ∈ L,
        (L.filterMap fun g2 => (Ded.sortDesc Ded.Agent.quality_score g2).head?).countP
          (fun s => g.any fun x => decide (x.path = s.path)) = 1 := by
  intro L
  induction L with
  | nil => intro _ _ g hg; cases hg
  | cons g0 t ih =>
    intro hpw hne g hg
    rw [List.pairwise_cons] at hpw
    obtain ⟨hsep, hpwt⟩ := hpw
    have hg0ne := hne g0 (List.mem_cons_self _ _)
    have hsort := sortDesc_perm Ded.Agent.quality_score g0
    obtain ⟨b0, hb0⟩ : ∃ b0, (Ded.sortDesc Ded.Agent.quality_score g0).head? = some b0 := by
      cases hh : (Ded.sortDesc Ded.Agent.quality_score g0).head? with
      | none =>
        exfalso
        have hnil := List.head?_eq_none_iff.mp hh
        have hlen := hsort.length_eq
        rw [hnil] at hlen
        exact hg0ne (List.length_eq_zero.mp hlen.symm)
      | some b0 => exact ⟨b0, rfl⟩
    have hb0mem : b0 ∈ g0 :=
      hsort.mem_iff.mp (List.mem_of_mem_head? (by rw [hb0]; exact rfl))
    simp only [List.filterMap_cons, hb0]
    rcases List.mem_cons.mp hg with rfl | hgt
    · rw [List.countP_cons]
      have hpos : (g.any fun x => decide (x.path = b0.path)) = true := by
        simp only [List.any_eq_true, decide_eq_true_eq]
        exact ⟨b0, hb0mem, rfl⟩
      have hz : ∀ s ∈ t.filterMap
          (fun g2 => (Ded.sortDesc Ded.Agent.quality_score g2).head?),
          ¬ (g.any fun x => decide (x.path = s.path)) = true := by
        intro s hs hany
        obtain ⟨g2, hg2, hsome⟩ := List.mem_filterMap.mp hs
        have hsmem : s ∈ g2 := (sortDesc_perm Ded.Agent.quality_score g2).mem_iff.mp
          (List.mem_of_mem_head? (by rw [hsome]; exact rfl))
        obtain ⟨x, hx, hpx⟩ := List.any_eq_true.mp hany
        exact hsep g2 hg2 x hx s hsmem (of_decide_eq_true hpx)
      rw [List.countP_eq_zero.mpr hz]
      simp [hpos]
    · rw [List.countP_cons]
      have hneg : (g.any fun x => decide (x.path = b0.path)) = false := by
        rw [List.any_eq_false]
        intro x hx hpx
        exact hsep g hgt b0 hb0mem x hx (of_decide_eq_true hpx).symm
      simp [hneg, ih hpwt (fun g2 hg2 => hne g2 (List.mem_cons_of_mem _ hg2)) g hgt]

/-- `unique_agents` with the let bindings of
`select_best_from_groups` expanded. -/
theorem unique_agents_eq (agents : List Ded.Agent) :
    Ded.unique_agents agents =
      (agents.filter fun a =>
        !(((Ded.find_duplicates agents).flatten.map Ded.Agent.path).contains a.path)) ++
      (Ded.find_duplicates agents).filterMap
        (fun g => (Ded.sortDesc Ded.Agent.quality_score g).head?) := rfl

/-- Part C of C1: each stored duplicate group contributes exactly one
survivor. -/
theorem survivors_one {agents : List Ded.Agent}
    (h : (agents.map Ded.Agent.path).Nodup) :
    ∀ g ∈ Ded.find_duplicates agents,
      (Ded.unique_agents agents).countP
        (fun s => g.any fun x => decide (x.path = s.path)) = 1 := by
  intro g hg
  rw [unique_agents_eq, List.countP_append]
  have hU : ((agents.filter fun a =>
      !(((Ded.find_duplicates agents).flatten.map Ded.Agent.path).contains a.path)).countP
      (fun s => g.any fun x => decide (x.path = s.path))) = 0 := by
    apply List.countP_eq_zero.mpr
    intro s hs hany
    have hnc := (List.mem_filter.mp hs).2
    obtain ⟨x, hx, hpx⟩ := List.any_eq_true.mp hany
    have hxin : x.path ∈ (Ded.find_duplicates agents).flatten.map Ded.Agent.path :=
      List.mem_map_of_mem Ded.Agent.path (List.mem_flatten.mpr ⟨g, hg, hx⟩)
    rw [of_decide_eq_true hpx] at hxin
    have hct : ((Ded.find_duplicates agents).flatten.map Ded.Agent.path).contains s.path =
        true := by simpa using hxin
    rw [hct] at hnc
    exact Bool.noConfusion hnc
  have hB := bests_one (Ded.find_duplicates agents)
    (pairwise_disj_of_nodup _ (multis_flatten_nodup h))
    (fun g2 hg2 => findGroupsF_ne_nil agents.length agents g2 (List.mem_of_mem_filter hg2))
    g hg
  rw [hU, hB]

/-- Part D of C1: every survivor is one of the input records. -/
theorem survivors_subset (agents : List Ded.Agent) :
    ∀ s ∈ Ded.unique_agents agents, s ∈ agents := by
  intro s hs
  rw [unique_agents_eq] at hs
  rcases List.mem_append.mp hs with hsU | hsB
  · exact List.mem_of_mem_filter hsU
  · obtain ⟨g, hg, hsome⟩ := List.mem_filterMap.mp hsB
    have hsg : s ∈ g := (sortDesc_perm Ded.Agent.quality_score g).mem_iff.mp
      (List.mem_of_mem_head? (by rw [hsome]; exact rfl))
    have hgf : g ∈ Ded.findGroups agents := List.mem_of_mem_filter hg
    exact (findGroups_join_perm agents).mem_iff.mp
      (List.mem_flatten.mpr ⟨g, hgf, hsg⟩)

theorem length_le_flatten :
    ∀ L : List (List Ded.Agent), (∀ g ∈ L, g ≠ []) → L.length ≤ L.flatten.length := by
  intro L
  induction L with
  | nil => intro _; exact Nat.le_refl 0
  | cons g t ih =>
    intro h
    rw [List.flatten_cons, List.length_append, List.length_cons]
    have hg : 1 ≤ g.length := by
      cases g with
      | nil => exact absurd rfl (h [] (List.mem_cons_self _ _))
      | cons x xs => simp
    have := ih fun g2 hg2 => h g2 (List.mem_cons_of_mem _ hg2)
    omega

/-- Part E of C1: there are at most as many survivors as inputs. -/
theorem survivors_card {agents : List Ded.Agent}
    (h : (agents.map Ded.Agent.path).Nodup) :
    (Ded.unique_agents agents).length ≤ agents.length := by
  rw [unique_agents_eq, List.length_append]
  have h1 : ((Ded.find_duplicates agents).filterMap
      (fun g => (Ded.sortDesc Ded.Agent.quality_score g).head?)).length ≤
      (Ded.find_duplicates agents).length := List.length_filterMap_le _ _
  have h2 : (Ded.find_duplicates agents).length ≤
      (Ded.find_duplicates agents).flatten.length :=
    length_le_flatten _ (fun g2 hg2 =>
      findGroupsF_ne_nil agents.length agents g2 (List.mem_of_mem_filter hg2))
  have h3 : (Ded.find_duplicates agents).flatten.length =
      ((Ded.find_duplicates agents).flatten.map Ded.Agent.path).length :=
    (List.length_map _ _).symm
  have h4 : ((Ded.find_duplicates agents).flatten.map Ded.Agent.path).length ≤
      (agents.filter fun a =>
        ((Ded.find_duplicates agents).flatten.map Ded.Agent.path).contains a.path).length := by
    have hnd := multis_flatten_nodup h
    have hsubset : ∀ x ∈ (Ded.find_duplicates agents).flatten.map Ded.Agent.path,
        x ∈ (agents.map Ded.Agent.path).filter
          (fun q => ((Ded.find_duplicates agents).flatten.map Ded.Agent.path).contains q) := by
      intro x hx
      rw [List.mem_filter]
      refine ⟨?_, by simpa using hx⟩
      obtain ⟨y, hy, rfl⟩ := List.mem_map.mp hx
      have hyg : y ∈ (Ded.findGroups agents).flatten :=
        (sublist_flatten (List.filter_sublist _)).subset hy
      exact List.mem_map_of_mem Ded.Agent.path
        ((findGroups_join_perm agents).mem_iff.mp hyg)
    have hsp := List.subperm_of_subset hnd hsubset
    have h5 := hsp.length_le
    have h7 : ((agents.map Ded.Agent.path).filter
        (fun q => ((Ded.find_duplicates agents).flatten.map Ded.Agent.path).contains q)).length =
        (agents.filter fun a =>
          ((Ded.find_duplicates agents).flatten.map Ded.Agent.path).contains a.path).length := by
      rw [← List.countP_eq_length_filter, ← List.countP_eq_length_filter, List.countP_map]
      rfl
    rw [h7] at h5
    exact h5
  have h6 := (List.filter_append_perm (fun a =>
      ((Ded.find_duplicates agents).flatten.map Ded.Agent.path).contains a.path)
    agents).length_eq
  rw [List.length_append] at h6
  omega

/-- C1: for input record lists with pairwise distinct paths (as
`load_agents` produces, one record per file), the grouper and the
resolver partition the records: every record lies in exactly one group
of the full grouping (size-1 groups being the unique records), the
group sizes sum to the input count, every stored duplicate group
contributes exactly one survivor to `unique_agents`, and the survivors
are a subset of the inputs with at most as many elements. -/
theorem claim_C1 (agents : List Ded.Agent) (h : (agents.map Ded.Agent.path).Nodup) :
    (∀ a ∈ agents, (Ded.findGroups agents).countP
        (fun g => g.any fun x => decide (x.path = a.path)) = 1) ∧
    ((Ded.findGroups agents).map List.length).sum = agents.length ∧
    (∀ g ∈ Ded.find_duplicates agents, (Ded.unique_agents agents).countP
        (fun s => g.any fun x => decide (x.path = s.path)) = 1) ∧
    (∀ s ∈ Ded.unique_agents agents, s ∈ agents) ∧
    (Ded.unique_agents agents).length ≤ agents.length :=
  ⟨fun _ ha => groups_cover h ha, groups_sizes agents, survivors_one h,
   survivors_subset agents, survivors_card h⟩

/-- C1 witness: the three-record list [python-pro, python-expert,
xxxxtide] has pairwise distinct paths, so the partition properties
hold for it. -/
theorem claim_C1_witness :
    (exList.map Ded.Agent.path).Nodup ∧
    (∀ a ∈ exList, (Ded.findGroups exList).countP
        (fun g => g.any fun x => decide (x.path = a.path)) = 1) ∧
    ((Ded.findGroups exList).map List.length).sum = exList.length ∧
    (∀ g ∈ Ded.find_duplicates exList, (Ded.unique_agents exList).countP
        (fun s => g.any fun x => decide (x.path = s.path)) = 1) ∧
    (∀ s ∈ Ded.unique_agents exList, s ∈ exList) ∧
    (Ded.unique_agents exList).length ≤ exList.length :=
  ⟨by decide, claim_C1 exList (by decide)⟩

end AgentsCollection
